import Mathlib

/-!
Verification of the gazette acquisition and extraction pipeline of the
`diario_oficial_tcmpa` repository.  The Python source is shallowly embedded:
regular-expression operations are translated, pattern by pattern, into
executable functions on `List Char`, and the stateful parts (the
`DiarioOficial` object, the month-range downloader) into explicit state
passing.  Each numbered theorem settles one claim about the pipeline.
-/

set_option maxRecDepth 8000

namespace TCMPA

/-!
## Character classes

These mirror the Python `re` character classes as used by the source on the
alphabet that actually occurs in the gazette texts (ASCII plus the Latin-1
letters of Portuguese).  `\s` is `[ \t\n\r\x0b\x0c]`, `\w` is letters,
digits and underscore, and upper/lower case follow Python's `str.isupper`
and `str.lower` on that alphabet.
-/

def isWS (c : Char) : Bool :=
  c = ' ' || c = '\t' || c = '\n' || c = '\r' || c = Char.ofNat 11 || c = Char.ofNat 12

def isDigitC (c : Char) : Bool := c.isDigit

def isWordC (c : Char) : Bool :=
  c.isAlphanum || c = '_' ||
    (Char.ofNat 0xC0 ≤ c && c ≤ Char.ofNat 0xFF &&
      c ≠ Char.ofNat 0xD7 && c ≠ Char.ofNat 0xF7)

def isUpperC (c : Char) : Bool :=
  c.isUpper || (Char.ofNat 0xC0 ≤ c && c ≤ Char.ofNat 0xDE && c ≠ Char.ofNat 0xD7)

def toLowerC (c : Char) : Char :=
  if c.isUpper then c.toLower
  else if Char.ofNat 0xC0 ≤ c && c ≤ Char.ofNat 0xDE && c ≠ Char.ofNat 0xD7 then
    Char.ofNat (c.toNat + 32)
  else c

def sChars (s : String) : List Char := s.data

def lowerL (l : List Char) : List Char := l.map toLowerC

/-- `str.strip()` from the left. -/
def lstrip (l : List Char) : List Char := l.dropWhile isWS

/-- `str.strip()` from the right. -/
def rstrip (l : List Char) : List Char := (l.reverse.dropWhile isWS).reverse

/-- Python `str.strip()`. -/
def pstrip (l : List Char) : List Char := rstrip (lstrip l)

/-!
## Leftmost-match scanning

`firstHit f s` is the index of the first suffix of `s` (scanning left to
right, as `re.search` does) satisfying `f`; `findOcc pat s` is `s.find(pat)`,
the index of the first occurrence of the literal `pat`.
-/

def firstHit (f : List Char → Bool) : List Char → Option Nat
  | [] => if f [] then some 0 else none
  | c :: t => if f (c :: t) then some 0 else (firstHit f t).map (· + 1)

def findOcc (pat : List Char) (s : List Char) : Option Nat :=
  firstHit (fun u => pat.isPrefixOf u) s

theorem firstHit_cons_pos {f : List Char → Bool} {c : Char} {t : List Char}
    (h : f (c :: t) = true) : firstHit f (c :: t) = some 0 := by
  simp [firstHit, h]

theorem firstHit_cons_neg {f : List Char → Bool} {c : Char} {t : List Char}
    (h : f (c :: t) = false) :
    firstHit f (c :: t) = (firstHit f t).map (· + 1) := by
  simp [firstHit, h]

/-- Scanning may skip any block whose characters all violate a head test
implied by `f`. -/
theorem firstHit_skip (f : List Char → Bool) (P : Char → Bool)
    (hf : ∀ c u, f (c :: u) = true → P c = true) :
    ∀ (w : List Char), (∀ c ∈ w, P c = false) → ∀ s : List Char,
      firstHit f (w ++ s) = (firstHit f s).map (· + w.length)
  | [], _, s => by
    simp
  | c :: w, hw, s => by
    have hc : P c = false := hw c (by simp)
    have hfc : f (c :: (w ++ s)) = false := by
      cases h : f (c :: (w ++ s)) with
      | false => rfl
      | true => exact absurd (hf c (w ++ s) h) (by simp [hc])
    rw [List.cons_append, firstHit_cons_neg hfc,
      firstHit_skip f P hf w (fun d hd => hw d (by simp [hd])) s]
    cases firstHit f s <;> simp [Nat.add_comm, Nat.add_assoc, Nat.add_left_comm]

/-- Scanning for a two-character token `b:` may skip a block that does not
contain the token, provided the following text does not begin with `:`. -/
theorem firstHit_skip2 (f : List Char → Bool) (b : Char)
    (hf : ∀ u, f u = true → [b, ':'].isPrefixOf u = true) :
    ∀ (x : List Char), ¬ [b, ':'] <:+: x → ∀ s : List Char, s.head? ≠ some ':' →
      firstHit f (x ++ s) = (firstHit f s).map (· + x.length)
  | [], _, s, _ => by simp
  | c :: x, hx, s, hs => by
    have hfc : f (c :: (x ++ s)) = false := by
      cases h : f (c :: (x ++ s)) with
      | false => rfl
      | true =>
        have hpre : [b, ':'] <+: c :: (x ++ s) :=
          List.isPrefixOf_iff_prefix.mp (hf _ h)
        rw [List.cons_prefix_cons] at hpre
        obtain ⟨hc, hpre2⟩ := hpre
        cases x with
        | nil =>
          cases s with
          | nil => simp at hpre2
          | cons d t =>
            rw [List.nil_append, List.cons_prefix_cons] at hpre2
            exact absurd (by simp [hpre2.1.symm]) hs
        | cons d x' =>
          rw [List.cons_append, List.cons_prefix_cons] at hpre2
          exact (hx ⟨[], x', by simp [hc.symm, hpre2.1.symm]⟩).elim
    have hx' : ¬ [b, ':'] <:+: x := by
      intro h
      obtain ⟨u, t, hut⟩ := h
      exact hx ⟨c :: u, t, by simp [← hut]⟩
    rw [List.cons_append, firstHit_cons_neg hfc,
      firstHit_skip2 f b hf x hx' s hs]
    cases firstHit f s <;> simp [Nat.add_comm, Nat.add_assoc, Nat.add_left_comm]

/-!
## Python-dict model

`data_dict` in the source is an insertion-ordered `dict` whose values are
strings or one nested dict (the `local` entry).  Assignment updates an
existing key in place and otherwise appends.
-/

inductive Val where
  | s (v : List Char)
  | d (entries : List (List Char × List Char))
  deriving DecidableEq

abbrev Dict := List (List Char × Val)

def dlookup (k : List Char) : Dict → Option Val
  | [] => none
  | (k', v) :: t => if k' = k then some v else dlookup k t

def dupdate (k : List Char) (v : Val) : Dict → Dict
  | [] => []
  | (k', v') :: t => if k' = k then (k', v) :: t else (k', v') :: dupdate k v t

def dinsert (k : List Char) (v : Val) (d : Dict) : Dict :=
  if (dlookup k d).isSome then dupdate k v d else d ++ [(k, v)]

theorem dlookup_dupdate_self (k : List Char) (v : Val) :
    ∀ d : Dict, (dlookup k d).isSome → dlookup k (dupdate k v d) = some v
  | [], h => by simp [dlookup] at h
  | (k', v') :: t, h => by
    by_cases hk : k' = k
    · simp [dupdate, dlookup, hk]
    · simp only [dlookup, if_neg hk] at h
      simp [dupdate, dlookup, hk, dlookup_dupdate_self k v t h]

theorem dlookup_dupdate_ne (k k' : List Char) (v : Val) (hk : k' ≠ k) :
    ∀ d : Dict, dlookup k (dupdate k' v d) = dlookup k d
  | [] => by simp [dupdate, dlookup]
  | (k'', v'') :: t => by
    by_cases h : k'' = k'
    · subst h
      simp [dupdate, dlookup, hk]
    · simp [dupdate, dlookup, h, dlookup_dupdate_ne k k' v hk t]

theorem dlookup_dinsert_self (k : List Char) (v : Val) (d : Dict) :
    dlookup k (dinsert k v d) = some v := by
  unfold dinsert
  by_cases h : (dlookup k d).isSome
  · simp [h, dlookup_dupdate_self k v d h]
  · simp only [h, if_false, Bool.false_eq_true]
    induction d with
    | nil => simp [dlookup]
    | cons p t ih =>
      obtain ⟨k', v'⟩ := p
      by_cases hk : k' = k
      · simp [dlookup, hk] at h
      · simp only [dlookup, if_neg hk] at h ⊢
        exact ih h

theorem dlookup_dinsert_ne (k k' : List Char) (v : Val) (hk : k' ≠ k) (d : Dict) :
    dlookup k (dinsert k' v d) = dlookup k d := by
  unfold dinsert
  by_cases h : (dlookup k' d).isSome
  · simp [h, dlookup_dupdate_ne k k' v hk d]
  · simp only [h, if_false, Bool.false_eq_true]
    induction d with
    | nil => simp [dlookup, hk]
    | cons p t ih =>
      obtain ⟨k'', v''⟩ := p
      by_cases hkk : k'' = k'
      · simp [dlookup, hkk] at h
      · simp only [dlookup] at h ⊢
        by_cases hkk2 : k'' = k
        · simp [hkk2]
        · simp only [if_neg hkk2]
          exact ih (by simpa [hkk] using h)

/-!
## `DataDiario` (src/documents/diario.py, lines 17-55)

`DataDiario.validar_data_futura` builds `datetime(ano, mes, dia)` — which
raises `ValueError` exactly when the triple is not a constructible Gregorian
date (Python's `datetime` accepts years 1..9999) — and turns that into
`DiarioNaoExiste`; it then raises `DiarioNaoExiste` when the date is
strictly after `datetime.today()`.  Since `datetime(y, m, d)` is midnight
and `today()` carries the current time of day, `datetime(y,m,d) >
datetime.today()` holds exactly when `(y,m,d)` is lexicographically after
today's calendar date.
-/

def isLeapYear (ano : Int) : Bool :=
  ano % 4 = 0 && (ano % 100 ≠ 0 || ano % 400 = 0)

def daysInMonth (ano mes : Int) : Int :=
  if mes = 2 then (if isLeapYear ano then 29 else 28)
  else if mes = 4 || mes = 6 || mes = 9 || mes = 11 then 30
  else 31

/-- The triples accepted by Python's `datetime(ano, mes, dia)`. -/
def datetimeValid (ano mes dia : Int) : Bool :=
  1 ≤ ano && ano ≤ 9999 && 1 ≤ mes && mes ≤ 12 && 1 ≤ dia && dia ≤ daysInMonth ano mes

/-- `datetime(a) > datetime.today()` for calendar dates `(ano, mes, dia)`. -/
def dateAfter (a hoje : Int × Int × Int) : Bool :=
  a.1 > hoje.1 ||
    (a.1 = hoje.1 && (a.2.1 > hoje.2.1 || (a.2.1 = hoje.2.1 && a.2.2 > hoje.2.2)))

structure DataDiario where
  dia : Int
  mes : Int
  ano : Int
  deriving DecidableEq

inductive DiarioExc where
  | diarioNaoExiste
  | dataFutura
  deriving DecidableEq

/-- `DataDiario(dia, mes, ano)` relative to today's calendar date `hoje`
(ano, mes, dia).  No network access happens here: the validators run at
pydantic construction time, before `DiarioOficial` touches the remote index. -/
def mkDataDiario (dia mes ano : Int) (hoje : Int × Int × Int) :
    Except DiarioExc DataDiario :=
  if datetimeValid ano mes dia = false then .error .diarioNaoExiste
  else if dateAfter (ano, mes, dia) hoje then .error .diarioNaoExiste
  else .ok ⟨dia, mes, ano⟩

/-- C4: for every (day, month, year) triple forming a valid Gregorian
calendar date not after today, `DataDiario` construction succeeds and stores
exactly that triple; for every impossible calendar date and every valid date
strictly after today, construction fails with `DiarioNaoExiste` (before any
network call, which only `DiarioOficial` performs afterwards). -/
theorem mkDataDiario_spec (dia mes ano : Int) (hoje : Int × Int × Int) :
    (datetimeValid ano mes dia = true ∧ dateAfter (ano, mes, dia) hoje = false →
      mkDataDiario dia mes ano hoje = .ok ⟨dia, mes, ano⟩) ∧
    (datetimeValid ano mes dia = false ∨
        (datetimeValid ano mes dia = true ∧ dateAfter (ano, mes, dia) hoje = true) →
      mkDataDiario dia mes ano hoje = .error .diarioNaoExiste) := by
  constructor
  · rintro ⟨hv, hf⟩
    simp [mkDataDiario, hv, hf]
  · rintro (hv | ⟨hv, hf⟩)
    · simp [mkDataDiario, hv]
    · simp [mkDataDiario, hv, hf]

theorem mkDataDiario_spec_witness :
    mkDataDiario 12 10 2025 (2026, 10, 12) = .ok ⟨12, 10, 2025⟩ ∧
    mkDataDiario 30 2 2025 (2026, 10, 12) = .error .diarioNaoExiste ∧
    mkDataDiario 1 1 2030 (2026, 10, 12) = .error .diarioNaoExiste :=
  ⟨(mkDataDiario_spec 12 10 2025 (2026, 10, 12)).1 (by decide),
   (mkDataDiario_spec 30 2 2025 (2026, 10, 12)).2 (Or.inl (by decide)),
   (mkDataDiario_spec 1 1 2030 (2026, 10, 12)).2 (Or.inr ⟨by decide, by decide⟩)⟩

/-!
## `DiarioRange.get_diario_month` (src/util/download_diario_range.py, lines 13-29)

`monthrange(ano, mes)` yields the number of days of the month;
`for dia in range(1, dias_no_mes)` iterates days `1 .. dias_no_mes - 1`,
so the last calendar day is never attempted.  `DiarioOficial(...)` either
yields an object carrying `local_path` or raises `DiarioNaoExiste`, which
is caught and the loop continues; we abstract that constructor as an oracle
`busca : Nat → Option (List Char)` giving the local path on success. -/

def monthrangeDays (ano mes : Nat) : Nat :=
  if mes = 2 then
    (if ano % 4 = 0 && (ano % 100 ≠ 0 || ano % 400 = 0) then 29 else 28)
  else if mes = 4 || mes = 6 || mes = 9 || mes = 11 then 30
  else 31

def get_diario_month (diasNoMes : Nat) (busca : Nat → Option (List Char)) :
    List (List Char) :=
  (List.range' 1 (diasNoMes - 1)).foldl
    (fun acc dia =>
      match busca dia with
      | some caminho => acc ++ [caminho]
      | none => acc) []

theorem get_diario_month_foldl (busca : Nat → Option (List Char)) :
    ∀ (dias : List Nat) (acc : List (List Char)),
      dias.foldl
        (fun acc dia =>
          match busca dia with
          | some caminho => acc ++ [caminho]
          | none => acc) acc = acc ++ dias.filterMap busca
  | [], acc => by simp
  | dia :: dias, acc => by
    cases h : busca dia with
    | some caminho =>
      simp [List.foldl_cons, h, get_diario_month_foldl busca dias (acc ++ [caminho]),
        List.filterMap_cons]
    | none =>
      simp [List.foldl_cons, h, get_diario_month_foldl busca dias acc,
        List.filterMap_cons]

/-- C10: for every (month, year), the batch month fetch attempts only days
1 through (days in month) - 1 — never the last calendar day — catching
`DiarioNaoExiste` per day and returning, in day order, the local paths of
exactly the attempted days that succeeded. -/
theorem get_diario_month_spec (mes ano : Nat) (busca : Nat → Option (List Char))
    (h1 : 1 ≤ mes) (h2 : mes ≤ 12) :
    get_diario_month (monthrangeDays ano mes) busca
        = (List.range' 1 (monthrangeDays ano mes - 1)).filterMap busca ∧
      monthrangeDays ano mes ∉ List.range' 1 (monthrangeDays ano mes - 1) ∧
      ∀ dia ∈ List.range' 1 (monthrangeDays ano mes - 1),
        1 ≤ dia ∧ dia < monthrangeDays ano mes := by
  refine ⟨?_, ?_, ?_⟩
  · rw [get_diario_month, get_diario_month_foldl]
    simp
  · intro hmem
    rw [List.mem_range'] at hmem
    obtain ⟨i, hi, heq⟩ := hmem
    omega
  · intro dia hmem
    rw [List.mem_range'] at hmem
    obtain ⟨i, hi, heq⟩ := hmem
    omega

theorem get_diario_month_spec_witness :
    get_diario_month (monthrangeDays 2024 2) (fun dia =>
        if dia = 3 || dia = 28 || dia = 29 then some (sChars "p") else none)
      = [sChars "p", sChars "p"] := by
  have h := (get_diario_month_spec 2 2024 (fun dia =>
    if dia = 3 || dia = 28 || dia = 29 then some (sChars "p") else none)
    (by decide) (by decide)).1
  rw [h]
  decide

/-!
## `DiarioOficial._diario_existe` (src/documents/diario.py, lines 242-286)
and the availability check in `__init__` (lines 141-149)

The HTTP fetch either raises a `RequestException` (transport/HTTP failure:
`_diario_existe` logs and returns `False`) or yields a parsed page.  The
page is abstracted to its `div id="mid"` container: absent, or present with
a list of anchors, each anchor with an optional `href`.  With no container,
or no first anchor, or a first anchor without `href`, `_diario_existe`
returns `False`.  Otherwise `internet_path` is set from the first anchor
(`urljoin` is kept abstract: the href string itself is stored); if it does
not end in `.pdf` (case-insensitively) the anchors are searched for one
whose `href` does, which then replaces `internet_path`; either way the
method returns `True`.  `__init__` raises `DiarioNaoExiste` whenever
`_diario_existe` returned `False`. -/

structure Anchor where
  href : Option (List Char)
  deriving DecidableEq

structure Pagina where
  mid : Option (List Anchor)
  deriving DecidableEq

inductive Fetch where
  | fail
  | ok (p : Pagina)
  deriving DecidableEq

def endsWithPdf (l : List Char) : Bool :=
  (sChars ".pdf").isSuffixOf (lowerL l)

def diario_existe (respostas : Fetch) (internet_path0 : List Char) :
    Bool × List Char :=
  match respostas with
  | .fail => (false, internet_path0)
  | .ok p =>
    match p.mid with
    | none => (false, internet_path0)
    | some anchors =>
      match anchors.head? with
      | none => (false, internet_path0)
      | some a =>
        match a.href with
        | none => (false, internet_path0)
        | some href =>
          if endsWithPdf href then (true, href)
          else
            match anchors.find? (fun a' =>
                match a'.href with
                | some h => endsWithPdf h
                | none => false) with
            | some a' =>
              match a'.href with
              | some h => (true, h)
              | none => (true, href)
            | none => (true, href)

/-- The availability gate of `DiarioOficial.__init__`: raise `DiarioNaoExiste`
whenever `_diario_existe` returned `False`. -/
def diarioInitOutcome (respostas : Fetch) : Except DiarioExc Unit :=
  if (diario_existe respostas []).1 then .ok () else .error .diarioNaoExiste

/-- C5 counterexample: a transport failure and a response lacking the
content container produce the *same* result from `_diario_existe` (`False`
with `internet_path` untouched) and the same `DiarioNaoExiste` from
`__init__`: the two failure modes are collapsed, not distinct. -/
theorem diario_existe_collapses_failures :
    diario_existe .fail [] = diario_existe (.ok ⟨none⟩) [] ∧
    diarioInitOutcome .fail = diarioInitOutcome (.ok ⟨none⟩) ∧
    diarioInitOutcome .fail = .error .diarioNaoExiste := by
  refine ⟨rfl, rfl, rfl⟩

/-- C5 amended: `_diario_existe` does not distinguish its failure modes: a
transport/HTTP failure, a missing content container, a container without an
anchor, and a first anchor without a usable link all yield the same `False`
(leaving `internet_path` unchanged), and `__init__` maps every such `False`
to the same `DiarioNaoExiste`. -/
theorem diario_existe_failure_modes (ip : List Char) :
    diario_existe .fail ip = (false, ip) ∧
    diario_existe (.ok ⟨none⟩) ip = (false, ip) ∧
    diario_existe (.ok ⟨some []⟩) ip = (false, ip) ∧
    diario_existe (.ok ⟨some [⟨none⟩]⟩) ip = (false, ip) ∧
    (∀ r : Fetch, (diario_existe r ip).1 = false →
      diarioInitOutcome r = .error .diarioNaoExiste) := by
  refine ⟨rfl, rfl, rfl, rfl, ?_⟩
  intro r hr
  have hsame : (diario_existe r []).1 = (diario_existe r ip).1 := by
    cases r with
    | fail => rfl
    | ok p =>
      cases p with
      | mk mid =>
        cases mid with
        | none => rfl
        | some anchors =>
          cases anchors with
          | nil => rfl
          | cons a t =>
            cases a with
            | mk href =>
              cases href with
              | none => rfl
              | some h =>
                simp only [diario_existe, List.head?]
  rw [diarioInitOutcome, hsame, hr]
  simp

theorem diario_existe_failure_modes_witness :
    diario_existe .fail (sChars "x") = (false, sChars "x") ∧
    diarioInitOutcome .fail = .error .diarioNaoExiste :=
  ⟨(diario_existe_failure_modes (sChars "x")).1,
    (diario_existe_failure_modes (sChars "x")).2.2.2.2 Fetch.fail rfl⟩

/-!
## Text normalization (`clean_text`, src/documents/diario.py lines 379-402
and src/documents/document.py lines 111-140)

Each `re.sub` of the source is translated into an executable scanner.  All
the patterns involved are deterministic in the backtracking regex engine
(every greedy repetition is followed by a token its own character class
excludes), so each one is faithfully rendered by maximal-munch matching at
the leftmost position, resuming after the matched region, exactly as
`re.sub` does.
-/

theorem length_dropWhile_le (p : Char → Bool) (t : List Char) :
    (t.dropWhile p).length ≤ t.length :=
  (List.dropWhile_sublist p (l := t)).length_le

/-- Match a literal, returning the rest. -/
def litM (pat s : List Char) : Option (List Char) :=
  if pat.isPrefixOf s then some (s.drop pat.length) else none

/-- Match one-or-more characters of a class, greedily (`X+`). -/
def plusM (p : Char → Bool) (s : List Char) : Option (List Char) :=
  if (s.takeWhile p).isEmpty then none else some (s.dropWhile p)

/-- Match exactly `n` characters of a class (`X{n}`). -/
def exactM (p : Char → Bool) (n : Nat) (s : List Char) : Option (List Char) :=
  if (s.take n).length = n && (s.take n).all p then some (s.drop n) else none

/-- `re.sub(pattern, "", text)` for a pattern whose match length at a given
position is computed by `m`; scans left to right and resumes after each
match. -/
def subMGo (m : List Char → Option Nat) : Nat → List Char → List Char
  | 0, s => s
  | _, [] => []
  | fuel + 1, c :: t =>
    match m (c :: t) with
    | some L => if L = 0 then c :: subMGo m fuel t else subMGo m fuel (t.drop (L - 1))
    | none => c :: subMGo m fuel t

def subM (m : List Char → Option Nat) (s : List Char) : List Char :=
  subMGo m s.length s

/-- `Consulta via leitor de QR Code.*?diario-eletronico\.` (lazy, DOTALL). -/
def matchQRAt (s : List Char) : Option Nat := do
  let r1 ← litM (sChars "Consulta via leitor de QR Code") s
  let q ← findOcc (sChars "diario-eletronico.") r1
  return (sChars "Consulta via leitor de QR Code").length + q +
    (sChars "diario-eletronico.").length

/-- An ordered alternation of literals (first alternative wins, as in the
regex engine). -/
def matchAltsAt (alts : List (List Char)) (s : List Char) : Option Nat :=
  (alts.find? (fun a => a.isPrefixOf s)).map (·.length)

/-- `https?://www\.tcmpa\.tc\.br/?` — the two optionals expanded, longest
first (both are greedy). -/
def urlAlts : List (List Char) :=
  [sChars "https://www.tcmpa.tc.br/", sChars "https://www.tcmpa.tc.br",
   sChars "http://www.tcmpa.tc.br/", sChars "http://www.tcmpa.tc.br"]

/-- `BIÊNIO – \w+ de \d{4}/\w+ de \d{4}`. -/
def matchBienioAt (s : List Char) : Option Nat := do
  let r1 ← litM (sChars "BIÊNIO – ") s
  let r2 ← plusM isWordC r1
  let r3 ← litM (sChars " de ") r2
  let r4 ← exactM isDigitC 4 r3
  let r5 ← litM (sChars "/") r4
  let r6 ← plusM isWordC r5
  let r7 ← litM (sChars " de ") r6
  let r8 ← exactM isDigitC 4 r7
  return s.length - r8.length

/-- `Redes Sociais \d+ Páginas`. -/
def matchRedesAt (s : List Char) : Option Nat := do
  let r1 ← litM (sChars "Redes Sociais ") s
  let r2 ← plusM isDigitC r1
  let r3 ← litM (sChars " Páginas") r2
  return s.length - r3.length

/-- `^\s*-\s*$` with only `re.DOTALL`: `^`/`$` are string anchors, so the
substitution fires only when the whole text is whitespace, `-`, whitespace. -/
def subDashLine (s : List Char) : List Char :=
  match s.dropWhile isWS with
  | '-' :: b => if b.all isWS then [] else s
  | _ => s

def isHexC (c : Char) : Bool :=
  c.isDigit || ('a' ≤ c && c ≤ 'f') || ('A' ≤ c && c ≤ 'F')

/-- `\\uf[0-9A-Fa-f]{3,}` — a literal backslash-u-f then three or more hex
digits, greedily. -/
def matchHexEscAt (s : List Char) : Option Nat := do
  let r1 ← litM (sChars "\\uf") s
  if 3 ≤ (r1.takeWhile isHexC).length then
    return 3 + (r1.takeWhile isHexC).length
  else none

/-- The stray private-use-area glyphs `[]`. -/
def glyphAlts : List (List Char) :=
  [[Char.ofNat 0xF0E7], [Char.ofNat 0xF038], [Char.ofNat 0xF039],
   [Char.ofNat 0xF028], [Char.ofNat 0xF02B]]

/-- One match of `(?m)^\s*(?:Publicado por:.*?$)` at a line start: greedy
(multi-line) whitespace, the literal, then lazily up to the next newline or
the end. -/
def matchPublicadoAt (s : List Char) : Option Nat :=
  if (sChars "Publicado por:").isPrefixOf (s.dropWhile isWS) then
    some ((s.takeWhile isWS).length + 14 +
      (((s.dropWhile isWS).drop 14).takeWhile (fun c => !(c = '\n'))).length)
  else none

/-- `re.sub` for the pattern above: a match may start only at position 0 or
right after a newline; a match ends just before a newline (or at the end),
so scanning resumes in mid-line state. -/
def subPublicadoGo : Nat → Bool → List Char → List Char
  | 0, _, s => s
  | _, _, [] => []
  | fuel + 1, atLineStart, c :: t =>
    if atLineStart then
      match matchPublicadoAt (c :: t) with
      | some L =>
        if L = 0 then c :: subPublicadoGo fuel (c = '\n') t
        else subPublicadoGo fuel false (t.drop (L - 1))
      | none => c :: subPublicadoGo fuel (c = '\n') t
    else c :: subPublicadoGo fuel (c = '\n') t

def subPublicado (s : List Char) : List Char :=
  subPublicadoGo s.length true s

/-- `(\w+)-\s+(\w+)` → `\1\2` (de-hyphenation), single pass. -/
def dehyphGo : Nat → List Char → List Char
  | 0, s => s
  | _, [] => []
  | fuel + 1, c :: t =>
    if isWordC c then
      match t.dropWhile isWordC with
      | '-' :: r2 =>
        if (r2.takeWhile isWS).isEmpty || ((r2.dropWhile isWS).takeWhile isWordC).isEmpty then
          c :: dehyphGo fuel t
        else
          (c :: t.takeWhile isWordC) ++ (r2.dropWhile isWS).takeWhile isWordC
            ++ dehyphGo fuel ((r2.dropWhile isWS).dropWhile isWordC)
      | _ => c :: dehyphGo fuel t
    else c :: dehyphGo fuel t

def dehyph (s : List Char) : List Char := dehyphGo s.length s

/-- `\n{3,}` → `\n\n`: a run of three or more newlines collapses to two. -/
def collapseNewlinesGo : Nat → List Char → List Char
  | 0, s => s
  | _, [] => []
  | fuel + 1, c :: t =>
    if c = '\n' then
      (if 2 ≤ (t.takeWhile (· = '\n')).length then ['\n', '\n']
        else '\n' :: t.takeWhile (· = '\n')) ++
        collapseNewlinesGo fuel (t.dropWhile (· = '\n'))
    else c :: collapseNewlinesGo fuel t

def collapseNewlines (s : List Char) : List Char := collapseNewlinesGo s.length s

/-- ` {2,}` → ` `: every run of spaces collapses to a single space. -/
def collapseSpacesGo : Nat → List Char → List Char
  | 0, s => s
  | _, [] => []
  | fuel + 1, c :: t =>
    if c = ' ' then ' ' :: collapseSpacesGo fuel (t.dropWhile (· = ' '))
    else c :: collapseSpacesGo fuel t

def collapseSpaces (s : List Char) : List Char := collapseSpacesGo s.length s

/-- `\n` → `` (remove all remaining newlines). -/
def stripNewlines (l : List Char) : List Char := l.filter (fun c => !(c = '\n'))

/-- `\d{3}\.\d{3}\.\d{3}-?\d{2}` at the head of the text; the optional dash
is greedy (and backtracking cannot help: a dash is not a digit). -/
def matchCPFAt : List Char → Option Nat
  | p1 :: p2 :: p3 :: '.' :: p4 :: p5 :: p6 :: '.' :: p7 :: p8 :: p9 :: t =>
    if isDigitC p1 && isDigitC p2 && isDigitC p3 && isDigitC p4 && isDigitC p5 &&
        isDigitC p6 && isDigitC p7 && isDigitC p8 && isDigitC p9 then
      match t with
      | j :: rest =>
        if j = '-' then
          match rest with
          | k1 :: k2 :: _ => if isDigitC k1 && isDigitC k2 then some 14 else none
          | _ => none
        else
          match rest with
          | k2 :: _ => if isDigitC j && isDigitC k2 then some 13 else none
          | _ => none
      | [] => none
    else none
  | _ => none

def cpfSearch (l : List Char) : Option Nat :=
  firstHit (fun u => (matchCPFAt u).isSome) l

/-- `_redact_personal_data`: `re.sub(r"\d{3}\.\d{3}\.\d{3}-?\d{2}",
"[REDIGIDO]", text)`. -/
def redactCPFGo : Nat → List Char → List Char
  | 0, s => s
  | _, [] => []
  | fuel + 1, c :: t =>
    match matchCPFAt (c :: t) with
    | some L => sChars "[REDIGIDO]" ++ redactCPFGo fuel (t.drop (L - 1))
    | none => c :: redactCPFGo fuel t

def redactCPF (s : List Char) : List Char := redactCPFGo s.length s

/-- `_is_there_personal_data`: does `CPF:\d{3}\.\d{3}\.\d{3}-\d{2}` (dash
mandatory) occur anywhere?  A mandatory-dash CPF body is exactly a
`matchCPFAt` result of length 14. -/
def hasCPFMarker (l : List Char) : Bool :=
  (firstHit (fun u =>
    (sChars "CPF:").isPrefixOf u && (matchCPFAt (u.drop 4) == some 14)) l).isSome

/-- The ten boilerplate patterns of `clean_text`, applied in source order. -/
def boilerplateSubs (text : List Char) : List Char :=
  subPublicado
    (subM (matchAltsAt [[Char.ofNat 0xF03C]])
      (subM matchHexEscAt
        (subM (matchAltsAt glyphAlts)
          (subDashLine
            (subM matchRedesAt
              (subM matchBienioAt
                (subM (matchAltsAt [sChars "www.tcm.pa.gov.br"])
                  (subM (matchAltsAt urlAlts)
                    (subM matchQRAt text)))))))))

/-- The shared normalization chain: boilerplate removal, de-hyphenation,
newline collapsing, space collapsing, newline stripping. -/
def clean_core (text : List Char) : List Char :=
  stripNewlines (collapseSpaces (collapseNewlines (dehyph (boilerplateSubs text))))

/-- `DiarioOficial.clean_text` (diario.py): no personal-data step. -/
def clean_text_diario (text : List Char) : List Char :=
  pstrip (clean_core text)

/-- `DocumentoBase.clean_text` (document.py): additionally redacts when the
`CPF:` marker pattern is present. -/
def clean_text_doc (text : List Char) : List Char :=
  pstrip (if hasCPFMarker (clean_core text) then redactCPF (clean_core text)
          else clean_core text)

/-!
## `DiarioOficial.extract_text` (src/documents/diario.py, lines 404-456)

The PDF is abstracted as `Option (List (List Char))`: `none` when
`pymupdf.open` raises (the method then logs and returns `""` leaving the
state untouched), otherwise the list of per-page texts.  Page index 0 is
skipped; for every later page `_obter_numero_diario` overwrites
`numero_diario`, the page text is cleaned when `limpar_texto` is set, and
non-empty results are joined with `"\n"`.  The memoization guard is
`if self.texto_original:` — Python truthiness, i.e. non-empty. -/

def isNonWordC (c : Char) : Bool := !isWordC c

/-- `\b\d{4}[\s\W]+DOE\s+TCMPA\s+Nº\s+([\d\.]+)` at one position (the
position itself must sit at a word boundary, handled by the scanner). -/
def matchNumDiarioAt (s : List Char) : Option (List Char) := do
  let r1 ← exactM isDigitC 4 s
  let r2 ← plusM isNonWordC r1
  let r3 ← litM (sChars "DOE") r2
  let r4 ← plusM isWS r3
  let r5 ← litM (sChars "TCMPA") r4
  let r6 ← plusM isWS r5
  let r7 ← litM (sChars "Nº") r6
  let r8 ← plusM isWS r7
  if (r8.takeWhile (fun c => isDigitC c || c = '.')).isEmpty then none
  else return r8.takeWhile (fun c => isDigitC c || c = '.')

def scanNumDiario : Bool → List Char → Option (List Char)
  | _, [] => none
  | prevWord, c :: t =>
    match (if prevWord then none else matchNumDiarioAt (c :: t)) with
    | some g => some g
    | none => scanNumDiario (isWordC c) t

def obter_numero_diario (texto : List Char) : List Char :=
  match scanNumDiario false texto with
  | some g => g
  | none => []

structure DiarioState where
  texto_original : List Char
  numero_diario : List Char
  deriving DecidableEq

def joinNL : List (List Char) → List Char
  | [] => []
  | [x] => x
  | x :: xs => x ++ '\n' :: joinNL xs

/-- The page loop of `extract_text`: skip page 0, clean when requested,
keep non-empty page texts. -/
def pageTexts (limpar_texto : Bool) (paginas : List (List Char)) : List (List Char) :=
  (paginas.drop 1).foldl
    (fun acc pagina =>
      let pg := if limpar_texto then clean_text_diario pagina else pagina
      if pg.isEmpty then acc else acc ++ [pg]) []

/-- The serial-number component of the page loop: `numero_diario` is
overwritten on every page past the cover. -/
def pageNum (paginas : List (List Char)) (num0 : List Char) : List Char :=
  (paginas.drop 1).foldl (fun _ pagina => obter_numero_diario pagina) num0

/-- `extract_text`: returns the text, the updated object state, and whether
PDF parsing was performed on this call. -/
def extract_text (st : DiarioState) (pdf : Option (List (List Char)))
    (limpar_texto : Bool) : List Char × DiarioState × Bool :=
  if st.texto_original.isEmpty then
    match pdf with
    | none => ([], st, true)
    | some paginas =>
      (joinNL (pageTexts limpar_texto paginas),
        ⟨joinNL (pageTexts limpar_texto paginas), pageNum paginas st.numero_diario⟩,
        true)
  else (st.texto_original, st, false)

/-- C6 counterexample: on a gazette whose PDF yields no text beyond the
skipped cover page, the first extraction returns `""`, leaves the memo
empty, and the second call parses the PDF again: parsing is *not* performed
at most once across the two calls. -/
theorem extract_text_parses_twice :
    (extract_text ⟨[], []⟩ (some [sChars "capa"]) true).2.2 = true ∧
    (extract_text (extract_text ⟨[], []⟩ (some [sChars "capa"]) true).2.1
        (some [sChars "capa"]) true).2.2 = true ∧
    (extract_text ⟨[], []⟩ (some [sChars "capa"]) true).1 = [] := by
  refine ⟨rfl, rfl, rfl⟩

/-- C6 amended: calling `extract_text` twice on the same issue returns
identical text both times; the second call skips PDF parsing exactly when
the first call produced non-empty text (`raw_text` populated), and when the
first call yields empty text the second call parses the PDF again. -/
theorem extract_text_memo (st : DiarioState) (pdf : Option (List (List Char)))
    (limpar_texto : Bool) :
    (extract_text (extract_text st pdf limpar_texto).2.1 pdf limpar_texto).1 =
      (extract_text st pdf limpar_texto).1 ∧
    (extract_text (extract_text st pdf limpar_texto).2.1 pdf limpar_texto).2.2 =
      (extract_text st pdf limpar_texto).1.isEmpty := by
  by_cases h : st.texto_original.isEmpty
  · cases pdf with
    | none => simp [extract_text, h]
    | some paginas =>
      by_cases h2 : (joinNL (pageTexts limpar_texto paginas)).isEmpty
      · simp [extract_text, h, h2]
      · simp [extract_text, h, h2]
  · simp [extract_text, h]

/-!
## Idempotence analysis of the normalization steps (claim C7)
-/

def noRun2 (p : Char → Bool) : List Char → Bool
  | a :: b :: t => (!(p a && p b)) && noRun2 p (b :: t)
  | _ => true

def noRun3 (p : Char → Bool) : List Char → Bool
  | a :: b :: c :: t => (!(p a && p b && p c)) && noRun3 p (b :: c :: t)
  | _ => true

theorem noRun2_tail (p : Char → Bool) (a : Char) (l : List Char)
    (h : noRun2 p (a :: l) = true) : noRun2 p l = true := by
  cases l with
  | nil => rfl
  | cons b t => exact (Bool.and_eq_true_iff.mp h).2

theorem noRun3_tail (p : Char → Bool) (a : Char) (l : List Char)
    (h : noRun3 p (a :: l) = true) : noRun3 p l = true := by
  cases l with
  | nil => rfl
  | cons b t =>
    cases t with
    | nil => rfl
    | cons c t' => exact (Bool.and_eq_true_iff.mp h).2

theorem head_dropWhile_not (p : Char → Bool) :
    ∀ (l : List Char) (a : Char), (l.dropWhile p).head? = some a → p a = false
  | [], a, h => by simp [List.dropWhile] at h
  | c :: t, a, h => by
    rw [List.dropWhile_cons] at h
    by_cases hc : p c
    · rw [if_pos hc] at h
      exact head_dropWhile_not p t a h
    · rw [if_neg hc] at h
      simp only [List.head?_cons, Option.some.injEq] at h
      subst h
      exact Bool.eq_false_iff.mpr hc

theorem head_takeWhile (p : Char → Bool) (l : List Char) (a : Char)
    (h : (l.takeWhile p).head? = some a) : p a = true := by
  cases l with
  | nil => simp [List.takeWhile] at h
  | cons c t =>
    rw [List.takeWhile_cons] at h
    by_cases hc : p c
    · rw [if_pos hc] at h
      simp only [List.head?_cons, Option.some.injEq] at h
      subst h
      exact hc
    · rw [if_neg hc] at h
      simp at h

theorem collapseSpacesGo_nil (fuel : Nat) : collapseSpacesGo fuel [] = [] := by
  cases fuel <;> rfl

theorem collapseNewlinesGo_nil (fuel : Nat) : collapseNewlinesGo fuel [] = [] := by
  cases fuel <;> rfl

theorem collapseSpacesGo_head :
    ∀ (fuel : Nat) (l : List Char), (collapseSpacesGo fuel l).head? = l.head?
  | 0, l => by cases l <;> rfl
  | fuel + 1, [] => rfl
  | fuel + 1, c :: t => by
    by_cases hc : c = ' '
    · subst hc
      simp [collapseSpacesGo]
    · simp [collapseSpacesGo, hc]

theorem noRun2_collapseSpacesGo :
    ∀ (fuel : Nat) (l : List Char), l.length ≤ fuel →
      noRun2 (· = ' ') (collapseSpacesGo fuel l) = true
  | 0, l, h => by
    have : l = [] := List.length_eq_zero.mp (Nat.le_zero.mp h)
    subst this
    rfl
  | fuel + 1, [], _ => rfl
  | fuel + 1, c :: t, h => by
    simp only [List.length_cons, Nat.add_le_add_iff_right] at h
    by_cases hc : c = ' '
    · subst hc
      simp only [collapseSpacesGo, if_pos rfl]
      have hlen : (t.dropWhile (· = ' ')).length ≤ fuel :=
        le_trans (length_dropWhile_le _ t) h
      have ih := noRun2_collapseSpacesGo fuel (t.dropWhile (· = ' ')) hlen
      cases hout : collapseSpacesGo fuel (t.dropWhile (· = ' ')) with
      | nil => rfl
      | cons b t' =>
        have hb : (decide (b = ' ')) = false := by
          have := collapseSpacesGo_head fuel (t.dropWhile (· = ' '))
          rw [hout] at this
          exact head_dropWhile_not _ _ _ this.symm
        simp only [noRun2, hb, Bool.and_false, Bool.not_false, Bool.true_and]
        rw [← hout]
        exact ih
    · simp only [collapseSpacesGo, if_neg hc]
      have ih := noRun2_collapseSpacesGo fuel t h
      cases hout : collapseSpacesGo fuel t with
      | nil => rfl
      | cons b t' =>
        have hcd : (decide (c = ' ')) = false := by simpa using hc
        simp only [noRun2, hcd, Bool.false_and, Bool.not_false, Bool.true_and]
        rw [← hout]
        exact ih

theorem collapseSpacesGo_of_noRun2 :
    ∀ (fuel : Nat) (l : List Char), l.length ≤ fuel →
      noRun2 (· = ' ') l = true → collapseSpacesGo fuel l = l
  | 0, l, hf, _ => by cases l <;> rfl
  | fuel + 1, [], _, _ => rfl
  | fuel + 1, c :: t, hf, h => by
    simp only [List.length_cons, Nat.add_le_add_iff_right] at hf
    by_cases hc : c = ' '
    · subst hc
      simp only [collapseSpacesGo, if_pos rfl]
      cases t with
      | nil => simp [collapseSpacesGo_nil]
      | cons b t' =>
        have hb : ¬ (b = ' ') := by
          have := (Bool.and_eq_true_iff.mp h).1
          simpa using this
        have hdw : List.dropWhile (fun x => decide (x = ' ')) (b :: t') = b :: t' := by
          rw [List.dropWhile_cons, if_neg (by simpa using hb)]
        rw [hdw, collapseSpacesGo_of_noRun2 fuel (b :: t') hf (noRun2_tail _ _ _ h)]
        simp
    · simp only [collapseSpacesGo, if_neg hc]
      rw [collapseSpacesGo_of_noRun2 fuel t hf (noRun2_tail _ _ _ h)]

theorem collapseSpaces_idem (l : List Char) :
    collapseSpaces (collapseSpaces l) = collapseSpaces l := by
  unfold collapseSpaces
  exact collapseSpacesGo_of_noRun2 _ _ (le_refl _)
    (noRun2_collapseSpacesGo _ _ (le_refl _))

theorem collapseNewlinesGo_head :
    ∀ (fuel : Nat) (l : List Char), (collapseNewlinesGo fuel l).head? = l.head?
  | 0, l => by cases l <;> rfl
  | fuel + 1, [] => rfl
  | fuel + 1, c :: t => by
    by_cases hc : c = '\n'
    · subst hc
      simp only [collapseNewlinesGo, if_pos rfl]
      by_cases h2 : 2 ≤ (t.takeWhile (· = '\n')).length
      · rw [if_pos h2]; rfl
      · rw [if_neg h2]; rfl
    · simp [collapseNewlinesGo, hc]

theorem noRun3_cons_one (out : List Char)
    (hh : ∀ b, out.head? = some b → (decide (b = '\n')) = false)
    (hr : noRun3 (· = '\n') out = true) :
    noRun3 (· = '\n') ('\n' :: out) = true := by
  cases out with
  | nil => rfl
  | cons c t =>
    cases t with
    | nil => rfl
    | cons d t' =>
      have hc := hh c rfl
      simp only [noRun3, hc, Bool.false_and, Bool.and_false, Bool.not_false, Bool.true_and]
      exact hr

theorem noRun3_cons_two (out : List Char)
    (hh : ∀ b, out.head? = some b → (decide (b = '\n')) = false)
    (hr : noRun3 (· = '\n') out = true) :
    noRun3 (· = '\n') ('\n' :: '\n' :: out) = true := by
  cases out with
  | nil => rfl
  | cons c t =>
    have hc := hh c rfl
    simp only [noRun3, hc, Bool.and_false, Bool.not_false, Bool.true_and]
    exact noRun3_cons_one (c :: t) hh hr

theorem noRun3_collapseNewlinesGo :
    ∀ (fuel : Nat) (l : List Char), l.length ≤ fuel →
      noRun3 (· = '\n') (collapseNewlinesGo fuel l) = true
  | 0, l, h => by
    have : l = [] := List.length_eq_zero.mp (Nat.le_zero.mp h)
    subst this
    rfl
  | fuel + 1, [], _ => rfl
  | fuel + 1, c :: t, h => by
    simp only [List.length_cons, Nat.add_le_add_iff_right] at h
    have hlen : (t.dropWhile (· = '\n')).length ≤ fuel :=
      le_trans (length_dropWhile_le _ t) h
    have ih := noRun3_collapseNewlinesGo fuel (t.dropWhile (· = '\n')) hlen
    have hh : ∀ b, (collapseNewlinesGo fuel (t.dropWhile (· = '\n'))).head? = some b →
        (decide (b = '\n')) = false := by
      intro b hb
      rw [collapseNewlinesGo_head] at hb
      exact head_dropWhile_not _ _ _ hb
    by_cases hc : c = '\n'
    · subst hc
      simp only [collapseNewlinesGo, if_pos rfl]
      by_cases h2 : 2 ≤ (t.takeWhile (· = '\n')).length
      · rw [if_pos h2]
        exact noRun3_cons_two _ hh ih
      · rw [if_neg h2]
        cases hrun : t.takeWhile (· = '\n') with
        | nil => exact noRun3_cons_one _ hh ih
        | cons r run' =>
          have hr : r = '\n' := by
            have := head_takeWhile (· = '\n') t r (by rw [hrun]; rfl)
            simpa using this
          have hrun' : run' = [] := by
            rw [hrun] at h2
            cases run' with
            | nil => rfl
            | cons x xs => exact absurd (by simp only [List.length_cons]; omega) h2
          subst hr hrun'
          exact noRun3_cons_two _ hh ih
    · simp only [collapseNewlinesGo, if_neg hc]
      have ih2 := noRun3_collapseNewlinesGo fuel t h
      cases hout : collapseNewlinesGo fuel t with
      | nil => rfl
      | cons b t' =>
        cases t' with
        | nil => rfl
        | cons d t'' =>
          have hcd : (decide (c = '\n')) = false := by simpa using hc
          simp only [noRun3, hcd, Bool.false_and, Bool.not_false, Bool.true_and]
          rw [← hout]
          exact ih2

theorem collapseNewlinesGo_of_noRun3 :
    ∀ (fuel : Nat) (l : List Char), l.length ≤ fuel →
      noRun3 (· = '\n') l = true → collapseNewlinesGo fuel l = l
  | 0, l, hf, _ => by cases l <;> rfl
  | fuel + 1, [], _, _ => rfl
  | fuel + 1, c :: t, hf, h => by
    simp only [List.length_cons, Nat.add_le_add_iff_right] at hf
    by_cases hc : c = '\n'
    · subst hc
      simp only [collapseNewlinesGo, if_pos rfl]
      cases t with
      | nil => simp [collapseNewlinesGo_nil]
      | cons b t' =>
        by_cases hb : b = '\n'
        · subst hb
          cases t' with
          | nil => simp [collapseNewlinesGo_nil]
          | cons d t'' =>
            have hd : ¬ (d = '\n') := by
              have := (Bool.and_eq_true_iff.mp h).1
              simpa using this
            have htw : List.takeWhile (fun x => decide (x = '\n')) ('\n' :: d :: t'')
                = ['\n'] := by
              simp [List.takeWhile_cons, hd]
            have hdw : List.dropWhile (fun x => decide (x = '\n')) ('\n' :: d :: t'')
                = d :: t'' := by
              simp [List.dropWhile_cons, hd]
            rw [htw, hdw,
              collapseNewlinesGo_of_noRun3 fuel (d :: t'')
                (by simp only [List.length_cons] at hf ⊢; omega)
                (noRun3_tail _ _ _ (noRun3_tail _ _ _ h))]
            simp
        · have htw : List.takeWhile (fun x => decide (x = '\n')) (b :: t') = [] := by
            simp [List.takeWhile_cons, hb]
          have hdw : List.dropWhile (fun x => decide (x = '\n')) (b :: t') = b :: t' := by
            simp [List.dropWhile_cons, hb]
          rw [htw, hdw,
            collapseNewlinesGo_of_noRun3 fuel (b :: t') hf (noRun3_tail _ _ _ h)]
          simp
    · simp only [collapseNewlinesGo, if_neg hc]
      rw [collapseNewlinesGo_of_noRun3 fuel t hf (noRun3_tail _ _ _ h)]

theorem collapseNewlines_idem (l : List Char) :
    collapseNewlines (collapseNewlines l) = collapseNewlines l := by
  unfold collapseNewlines
  exact collapseNewlinesGo_of_noRun3 _ _ (le_refl _)
    (noRun3_collapseNewlinesGo _ _ (le_refl _))


theorem stripNewlines_idem (l : List Char) :
    stripNewlines (stripNewlines l) = stripNewlines l := by
  simp [stripNewlines, List.filter_filter]

/-- C7 counterexample: neither boilerplate removal nor de-hyphenation is
idempotent, and the whole `clean_text` pipeline is not idempotent: the
de-hyphenation substitution is single-pass, so overlapping hyphenation
sites (`"ab- cd- ef"`) need two passes, and removing one boilerplate
occurrence can splice a new occurrence together. -/
theorem clean_text_not_idempotent :
    dehyph (dehyph (sChars "ab- cd- ef")) ≠ dehyph (sChars "ab- cd- ef") ∧
    subM (matchAltsAt [sChars "www.tcm.pa.gov.br"])
        (subM (matchAltsAt [sChars "www.tcm.pa.gov.br"])
          (sChars "www.tcm.pa.govwww.tcm.pa.gov.br.br")) ≠
      subM (matchAltsAt [sChars "www.tcm.pa.gov.br"])
        (sChars "www.tcm.pa.govwww.tcm.pa.gov.br.br") ∧
    clean_text_doc (clean_text_doc (sChars "ab- cd- ef")) ≠
      clean_text_doc (sChars "ab- cd- ef") := by
  refine ⟨by decide, by decide, by decide⟩

/-- C7 amended: of the normalization steps, whitespace collapsing (both the
newline-run and space-run collapses) and newline stripping are idempotent;
boilerplate removal and de-hyphenation are single-pass substitutions and
are not idempotent in general, so neither is the whole `clean_text`
pipeline. -/
theorem whitespace_steps_idempotent (l : List Char) :
    collapseSpaces (collapseSpaces l) = collapseSpaces l ∧
    collapseNewlines (collapseNewlines l) = collapseNewlines l ∧
    stripNewlines (stripNewlines l) = stripNewlines l :=
  ⟨collapseSpaces_idem l, collapseNewlines_idem l, stripNewlines_idem l⟩

/-!
## `_extract_key_content` (src/documents/base.py lines 180-217 and
src/documents/document.py lines 166-195)

For a non-last key the source searches
`rf"{key}:\s*(.*?)\s*(?={next_key}:)"` with `re.DOTALL` and takes
`group(1).strip()`;  for the last key, `rf"{key}:\s*(.*)$"`.  Because
`.*?` is lazy and the surrounding `\s*` are greedy against a lookahead
whose token starts with a non-whitespace character, the engine yields:
match at the first position whose `key:` is followed (anywhere later) by
`next_key:`; the group is the text from after `key:` and its whitespace run
up to the first later occurrence of `next_key:`, with the whitespace run
before that occurrence dropped. -/

/-- The leftmost-match condition of `rf"{key}:\s*(.*?)\s*(?={next_key}:)"`:
the suffix starts with `key:` and `next_key:` occurs at or after the end of
that token. -/
def keyTokenHit (key nextKey : List Char) (u : List Char) : Bool :=
  (key ++ [':']).isPrefixOf u &&
    (findOcc (nextKey ++ [':']) (u.drop (key.length + 1))).isSome

/-- `re.search(rf"{k}:\s*(.*?)\s*(?={nk}:)", text, re.DOTALL)`, as
`group(1).strip()`. -/
def extractValue (key nextKey : List Char) (text : List Char) : Option (List Char) :=
  match firstHit (keyTokenHit key nextKey) text with
  | none => none
  | some i =>
    match findOcc (nextKey ++ [':'])
        ((text.drop (i + key.length + 1)).dropWhile isWS) with
    | some q =>
      some (pstrip (((text.drop (i + key.length + 1)).dropWhile isWS).take q))
    | none => none

/-- `re.search(rf"{k}:\s*(.*)$", text, re.DOTALL)`, as `group(1).strip()`. -/
def extractLast (key : List Char) (text : List Char) : Option (List Char) :=
  match findOcc (key ++ [':']) text with
  | none => none
  | some i => some (pstrip (text.drop (i + key.length + 1)))

/-- `re.sub(r"\s+", "_", ...)`: each whitespace run becomes one underscore. -/
def wsToUnderscoreGo : Nat → List Char → List Char
  | 0, s => s
  | _, [] => []
  | fuel + 1, c :: t =>
    if isWS c then '_' :: wsToUnderscoreGo fuel (t.dropWhile isWS)
    else c :: wsToUnderscoreGo fuel t

/-- Dict key normalization `re.sub(r"\s+", "_", key.lower())`. -/
def normKey (key : List Char) : List Char :=
  wsToUnderscoreGo key.length (lowerL key)

/-- Pair each key with its successor, mirroring the indexed loop. -/
def withNext : List (List Char) → List (List Char × Option (List Char))
  | [] => []
  | [k] => [(k, none)]
  | k :: k' :: t => (k, some k') :: withNext (k' :: t)

/-- One loop iteration of `Document._extract_key_content` (base.py): on a
match the normalized key maps to the stripped group, otherwise the
lower-cased key maps to the empty string. -/
def entryBase (text : List Char) : List Char × Option (List Char) → List Char × List Char
  | (key, some nextKey) =>
    match extractValue key nextKey text with
    | some v => (normKey key, v)
    | none => (lowerL key, [])
  | (key, none) =>
    match extractLast key text with
    | some v => (normKey key, v)
    | none => (lowerL key, [])

/-- `Document._extract_key_content` of base.py. -/
def extract_key_content_base (text : List Char) (keys : List (List Char)) : Dict :=
  (withNext keys).foldl
    (fun d kn => dinsert (entryBase text kn).1 (.s (entryBase text kn).2) d) []

/-! ### Supporting lemmas for the partition theorem -/

theorem ws_ne_char {c b : Char} (hc : isWS c = true) (hb : isWS b = false) :
    decide (c = b) = false := by
  by_cases h : c = b
  · subst h
    rw [hc] at hb
    exact absurd hb (by simp)
  · simpa using h

theorem isPrefixOf_cons_iff {b : Char} {p : List Char} {c : Char} {u : List Char} :
    (b :: p).isPrefixOf (c :: u) = true ↔ c = b ∧ p.isPrefixOf u = true := by
  constructor
  · intro h
    have := List.isPrefixOf_iff_prefix.mp h
    rw [List.cons_prefix_cons] at this
    exact ⟨this.1.symm, List.isPrefixOf_iff_prefix.mpr this.2⟩
  · rintro ⟨rfl, h⟩
    exact List.isPrefixOf_iff_prefix.mpr
      (List.cons_prefix_cons.mpr ⟨rfl, List.isPrefixOf_iff_prefix.mp h⟩)

theorem dropWhile_ws_append (w : List Char) (hw : ∀ c ∈ w, isWS c = true) :
    ∀ s : List Char, (w ++ s).dropWhile isWS = s.dropWhile isWS := by
  induction w with
  | nil => intro s; rfl
  | cons c t ih =>
    intro s
    rw [List.cons_append, List.dropWhile_cons, if_pos (hw c (by simp))]
    exact ih (fun d hd => hw d (by simp [hd])) s

theorem dropWhile_head_neg (s : List Char)
    (h : ∀ c, s.head? = some c → isWS c = false) : s.dropWhile isWS = s := by
  cases s with
  | nil => rfl
  | cons c t =>
    rw [List.dropWhile_cons, if_neg]
    simp [h c rfl]

theorem drop_len_plus (u : List Char) (n : Nat) :
    ∀ v : List Char, (u ++ v).drop (u.length + n) = v.drop n := by
  induction u with
  | nil => intro v; simp
  | cons c t ih =>
    intro v
    simp only [List.cons_append, List.length_cons, List.drop_succ_cons]
    have : t.length + 1 + n = t.length + n + 1 := by omega
    rw [this]
    exact ih v

theorem rstrip_append_ws (x w : List Char) (hw : ∀ c ∈ w, isWS c = true)
    (hxl : ∀ c, x.getLast? = some c → isWS c = false) :
    rstrip (x ++ w) = x := by
  unfold rstrip
  rw [List.reverse_append,
    dropWhile_ws_append w.reverse (fun c hc => hw c (List.mem_reverse.mp hc)),
    dropWhile_head_neg _ (by
      intro c hc
      rw [List.head?_reverse] at hc
      exact hxl c hc)]
  exact List.reverse_reverse x

theorem pstrip_ws_append (w z : List Char) (hw : ∀ c ∈ w, isWS c = true)
    (hzh : ∀ c, z.head? = some c → isWS c = false)
    (hzl : ∀ c, z.getLast? = some c → isWS c = false) :
    pstrip (w ++ z) = z := by
  unfold pstrip lstrip
  rw [dropWhile_ws_append w hw, dropWhile_head_neg z hzh]
  have : rstrip (z ++ []) = z := rstrip_append_ws z [] (by simp) hzl
  simpa using this

/-- `findOcc` of a `b:` token across whitespace, a token-free block, and
whitespace lands exactly on the token. -/
theorem findOcc_token (b : Char) (hb : isWS b = false) (hbc : b ≠ ':')
    (w1 x w2 r : List Char)
    (hw1 : ∀ c ∈ w1, isWS c = true) (hw2 : ∀ c ∈ w2, isWS c = true)
    (hx : ¬ [b, ':'] <:+: x) :
    findOcc [b, ':'] (w1 ++ x ++ w2 ++ ([b, ':'] ++ r)) =
      some (w1.length + x.length + w2.length) := by
  have hf1 : ∀ c u, (fun u => ([b, ':'] : List Char).isPrefixOf u) (c :: u) = true →
      decide (c = b) = true := by
    intro c u h
    have := (isPrefixOf_cons_iff.mp h).1
    simpa using this
  have hhead : (w2 ++ ([b, ':'] ++ r)).head? ≠ some ':' := by
    cases w2 with
    | nil =>
      simp only [List.nil_append, List.cons_append, List.head?_cons, ne_eq,
        Option.some.injEq]
      intro hcon
      exact hbc hcon
    | cons c t =>
      simp only [List.cons_append, List.head?_cons, ne_eq, Option.some.injEq]
      intro hcon
      have hcws := hw2 c (by simp)
      rw [hcon] at hcws
      simp [isWS] at hcws
  rw [findOcc, List.append_assoc, List.append_assoc]
  rw [firstHit_skip _ (· = b) hf1 w1
    (fun c hc => ws_ne_char (hw1 c hc) hb) (x ++ (w2 ++ ([b, ':'] ++ r)))]
  rw [firstHit_skip2 _ b (fun u h => h) x hx (w2 ++ ([b, ':'] ++ r)) hhead]
  rw [firstHit_skip _ (· = b) hf1 w2
    (fun c hc => ws_ne_char (hw2 c hc) hb) ([b, ':'] ++ r)]
  rw [show ([b, ':'] ++ r : List Char) = b :: (':' :: r) by simp]
  rw [firstHit_cons_pos (by simp [List.isPrefixOf])]
  simp [Option.map_map]
  omega

/-- The value computation of `extractValue` after the match: whitespace,
content, whitespace up to the next token yields exactly the content. -/
theorem extractValue_segment (b : Char) (hb : isWS b = false) (hbc : b ≠ ':')
    (w1 x w2 r : List Char)
    (hw1 : ∀ c ∈ w1, isWS c = true) (hw2 : ∀ c ∈ w2, isWS c = true)
    (hx : ¬ [b, ':'] <:+: x)
    (hxh : ∀ c, x.head? = some c → isWS c = false)
    (hxl : ∀ c, x.getLast? = some c → isWS c = false) :
    (match findOcc [b, ':'] ((w1 ++ x ++ w2 ++ ([b, ':'] ++ r)).dropWhile isWS) with
      | some q =>
        some (pstrip (((w1 ++ x ++ w2 ++ ([b, ':'] ++ r)).dropWhile isWS).take q))
      | none => (none : Option (List Char))) = some x := by
  cases hxe : x with
  | nil =>
    subst hxe
    have hdw : (w1 ++ [] ++ w2 ++ ([b, ':'] ++ r)).dropWhile isWS = [b, ':'] ++ r := by
      simp only [List.append_nil]
      rw [List.append_assoc, dropWhile_ws_append w1 hw1,
        dropWhile_ws_append w2 hw2]
      exact dropWhile_head_neg _ (by
        intro c hc
        simp only [List.cons_append, List.head?_cons, Option.some.injEq] at hc
        subst hc
        exact hb)
    have hocc : findOcc [b, ':'] ([b, ':'] ++ r) = some 0 := by
      rw [show ([b, ':'] ++ r : List Char) = b :: (':' :: r) by simp]
      exact firstHit_cons_pos (by simp [List.isPrefixOf])
    rw [hdw, hocc]
    show some (pstrip (([b, ':'] ++ r).take 0)) = some []
    simp [pstrip, lstrip, rstrip]
  | cons xh xt =>
    rw [← hxe]
    have hxne : x ≠ [] := by rw [hxe]; simp
    have hdw : (w1 ++ x ++ w2 ++ ([b, ':'] ++ r)).dropWhile isWS =
        x ++ w2 ++ ([b, ':'] ++ r) := by
      rw [List.append_assoc, List.append_assoc, dropWhile_ws_append w1 hw1,
        ← List.append_assoc]
      exact dropWhile_head_neg _ (by
        intro c hc
        rw [List.head?_append_of_ne_nil] at hc
        · rw [List.head?_append_of_ne_nil] at hc
          · exact hxh c hc
          · exact hxne
        · simp [hxne])
    have hocc : findOcc [b, ':'] (x ++ w2 ++ ([b, ':'] ++ r)) =
        some (x.length + w2.length) := by
      have := findOcc_token b hb hbc [] x w2 r (by simp) hw2 hx
      simpa using this
    rw [hdw, hocc]
    show some (pstrip ((x ++ w2 ++ ([b, ':'] ++ r)).take (x.length + w2.length))) = some x
    have htake : (x ++ w2 ++ ([b, ':'] ++ r)).take (x.length + w2.length) = x ++ w2 := by
      have hlen : (x ++ w2).length = x.length + w2.length := by simp
      rw [← hlen, List.take_left]
    have hps : pstrip (x ++ w2) = x := by
      unfold pstrip lstrip
      rw [dropWhile_head_neg _ (by
        intro c hc
        rw [List.head?_append_of_ne_nil] at hc
        · exact hxh c hc
        · exact hxne)]
      exact rstrip_append_ws x w2 hw2 hxl
    rw [htake, hps]

/-- Boundary condition: the first character, if any, is not whitespace. -/
def headNotWS (l : List Char) : Bool :=
  match l.head? with
  | some c => !isWS c
  | none => true

/-- Boundary condition: the last character, if any, is not whitespace. -/
def lastNotWS (l : List Char) : Bool :=
  match l.getLast? with
  | some c => !isWS c
  | none => true

theorem headNotWS_spec {l : List Char} (h : headNotWS l = true) :
    ∀ c, l.head? = some c → isWS c = false := by
  intro c hc
  unfold headNotWS at h
  rw [hc] at h
  simpa using h

theorem lastNotWS_spec {l : List Char} (h : lastNotWS l = true) :
    ∀ c, l.getLast? = some c → isWS c = false := by
  intro c hc
  unfold lastNotWS at h
  rw [hc] at h
  simpa using h

theorem head_ne_colon_append (w : List Char) (hw : ∀ c ∈ w, isWS c = true)
    (s : List Char) (hs : s.head? ≠ some ':') : (w ++ s).head? ≠ some ':' := by
  cases w with
  | nil => simpa using hs
  | cons c t =>
    simp only [List.cons_append, List.head?_cons, ne_eq, Option.some.injEq]
    intro hcon
    have hcws := hw c (by simp)
    rw [hcon] at hcws
    simp [isWS] at hcws

/-- C1: on a text laying out the labels `A:`, `B:`, `C:` in that order with
contents `x`, `y`, `z` and arbitrary whitespace placement between tokens
(the contents not containing a later key token and not themselves starting
or ending in whitespace), `_extract_key_content` with key list `[A, B, C]`
returns exactly `a ↦ x, b ↦ y, c ↦ z`: each non-last key's value is
everything between its `key:` and the next `next_key:`, trimmed, and the
last key's value extends to the end of the span. -/
theorem extract_key_content_partition
    (w0 w1 w2 w3 w4 w5 x y z : List Char)
    (hw0 : ∀ c ∈ w0, isWS c = true) (hw1 : ∀ c ∈ w1, isWS c = true)
    (hw2 : ∀ c ∈ w2, isWS c = true) (hw3 : ∀ c ∈ w3, isWS c = true)
    (hw4 : ∀ c ∈ w4, isWS c = true) (hw5 : ∀ c ∈ w5, isWS c = true)
    (hxB : ¬ ['B', ':'] <:+: x) (hxC : ¬ ['C', ':'] <:+: x)
    (hyC : ¬ ['C', ':'] <:+: y)
    (hxh : headNotWS x = true) (hxl : lastNotWS x = true)
    (hyh : headNotWS y = true) (hyl : lastNotWS y = true)
    (hzh : headNotWS z = true) (hzl : lastNotWS z = true) :
    extract_key_content_base
      (w0 ++ (['A', ':'] ++ (w1 ++ x ++ w2 ++ (['B', ':'] ++
        (w3 ++ y ++ w4 ++ (['C', ':'] ++ (w5 ++ z)))))))
      [['A'], ['B'], ['C']] =
      [(['a'], .s x), (['b'], .s y), (['c'], .s z)] := by
  have hxh' := headNotWS_spec hxh
  have hxl' := lastNotWS_spec hxl
  have hyh' := headNotWS_spec hyh
  have hyl' := lastNotWS_spec hyl
  have hzh' := headNotWS_spec hzh
  have hzl' := lastNotWS_spec hzl
  -- abbreviations (syntactic, for readability only)
  have hfA : ∀ c u, keyTokenHit ['A'] ['B'] (c :: u) = true →
      decide (c = 'A') = true := by
    intro c u h
    have h1 := (Bool.and_eq_true_iff.mp h).1
    have := (isPrefixOf_cons_iff.mp h1).1
    simpa using this
  have hfB : ∀ c u, keyTokenHit ['B'] ['C'] (c :: u) = true →
      decide (c = 'B') = true := by
    intro c u h
    have h1 := (Bool.and_eq_true_iff.mp h).1
    have := (isPrefixOf_cons_iff.mp h1).1
    simpa using this
  have hfB2 : ∀ u, keyTokenHit ['B'] ['C'] u = true →
      (['B', ':'] : List Char).isPrefixOf u = true := by
    intro u h
    exact (Bool.and_eq_true_iff.mp h).1
  have hfC : ∀ c u, (fun u => (['C', ':'] : List Char).isPrefixOf u) (c :: u) = true →
      decide (c = 'C') = true := by
    intro c u h
    have := (isPrefixOf_cons_iff.mp h).1
    simpa using this
  -- the two inner tails
  have hheadB : (w2 ++ (['B', ':'] ++ (w3 ++ y ++ w4 ++ (['C', ':'] ++ (w5 ++ z))))).head?
      ≠ some ':' :=
    head_ne_colon_append w2 hw2 _ (by simp)
  have hheadC : (w4 ++ (['C', ':'] ++ (w5 ++ z))).head? ≠ some ':' :=
    head_ne_colon_append w4 hw4 _ (by simp)
  -- hit conditions at the real tokens
  have hitA : keyTokenHit ['A'] ['B']
      ('A' :: ':' :: (w1 ++ x ++ w2 ++ (['B', ':'] ++
        (w3 ++ y ++ w4 ++ (['C', ':'] ++ (w5 ++ z)))))) = true := by
    unfold keyTokenHit
    refine Bool.and_eq_true_iff.mpr ⟨by simp [List.isPrefixOf], ?_⟩
    rw [show (('A' :: ':' :: (w1 ++ x ++ w2 ++ (['B', ':'] ++
        (w3 ++ y ++ w4 ++ (['C', ':'] ++ (w5 ++ z)))))).drop
          ((['A'] : List Char).length + 1)) =
      (w1 ++ x ++ w2 ++ (['B', ':'] ++
        (w3 ++ y ++ w4 ++ (['C', ':'] ++ (w5 ++ z))))) from rfl]
    rw [show ((['B'] : List Char) ++ [':']) = ['B', ':'] from rfl]
    rw [findOcc_token 'B' (by decide) (by decide) w1 x w2 _ hw1 hw2 hxB]
    rfl
  have hitB : keyTokenHit ['B'] ['C']
      ('B' :: ':' :: (w3 ++ y ++ w4 ++ (['C', ':'] ++ (w5 ++ z)))) = true := by
    unfold keyTokenHit
    refine Bool.and_eq_true_iff.mpr ⟨by simp [List.isPrefixOf], ?_⟩
    rw [show (('B' :: ':' :: (w3 ++ y ++ w4 ++ (['C', ':'] ++ (w5 ++ z)))).drop
          ((['B'] : List Char).length + 1)) =
      (w3 ++ y ++ w4 ++ (['C', ':'] ++ (w5 ++ z))) from rfl]
    rw [show ((['C'] : List Char) ++ [':']) = ['C', ':'] from rfl]
    rw [findOcc_token 'C' (by decide) (by decide) w3 y w4 _ hw3 hw4 hyC]
    rfl
  -- position of the A match
  have hA : firstHit (keyTokenHit ['A'] ['B'])
      (w0 ++ (['A', ':'] ++ (w1 ++ x ++ w2 ++ (['B', ':'] ++
        (w3 ++ y ++ w4 ++ (['C', ':'] ++ (w5 ++ z))))))) = some w0.length := by
    rw [firstHit_skip _ (· = 'A') hfA w0
      (fun c hc => ws_ne_char (hw0 c hc) (by decide)) _]
    rw [show ((['A', ':'] ++ (w1 ++ x ++ w2 ++ (['B', ':'] ++
        (w3 ++ y ++ w4 ++ (['C', ':'] ++ (w5 ++ z)))))) : List Char) =
      'A' :: ':' :: (w1 ++ x ++ w2 ++ (['B', ':'] ++
        (w3 ++ y ++ w4 ++ (['C', ':'] ++ (w5 ++ z))))) from rfl]
    rw [firstHit_cons_pos hitA]
    simp
  -- position of the B match
  have hB : firstHit (keyTokenHit ['B'] ['C'])
      (w0 ++ (['A', ':'] ++ (w1 ++ x ++ w2 ++ (['B', ':'] ++
        (w3 ++ y ++ w4 ++ (['C', ':'] ++ (w5 ++ z))))))) =
      some (w0.length + 2 + w1.length + x.length + w2.length) := by
    rw [firstHit_skip _ (· = 'B') hfB w0
      (fun c hc => ws_ne_char (hw0 c hc) (by decide)) _]
    rw [firstHit_skip _ (· = 'B') hfB ['A', ':'] (by decide) _]
    rw [show ((w1 ++ x ++ w2 ++ (['B', ':'] ++
        (w3 ++ y ++ w4 ++ (['C', ':'] ++ (w5 ++ z)))))) =
      w1 ++ (x ++ (w2 ++ (['B', ':'] ++
        (w3 ++ y ++ w4 ++ (['C', ':'] ++ (w5 ++ z)))))) by simp [List.append_assoc]]
    rw [firstHit_skip _ (· = 'B') hfB w1
      (fun c hc => ws_ne_char (hw1 c hc) (by decide)) _]
    rw [firstHit_skip2 _ 'B' hfB2 x hxB _ hheadB]
    rw [firstHit_skip _ (· = 'B') hfB w2
      (fun c hc => ws_ne_char (hw2 c hc) (by decide)) _]
    rw [show ((['B', ':'] ++ (w3 ++ y ++ w4 ++ (['C', ':'] ++ (w5 ++ z)))) : List Char) =
      'B' :: ':' :: (w3 ++ y ++ w4 ++ (['C', ':'] ++ (w5 ++ z))) from rfl]
    rw [firstHit_cons_pos hitB]
    simp [Option.map_map]
    omega
  -- position of the C token (for the last key)
  have hC : findOcc ['C', ':']
      (w0 ++ (['A', ':'] ++ (w1 ++ x ++ w2 ++ (['B', ':'] ++
        (w3 ++ y ++ w4 ++ (['C', ':'] ++ (w5 ++ z))))))) =
      some (w0.length + 2 + w1.length + x.length + w2.length + 2 +
        w3.length + y.length + w4.length) := by
    rw [findOcc]
    rw [firstHit_skip _ (· = 'C') hfC w0
      (fun c hc => ws_ne_char (hw0 c hc) (by decide)) _]
    rw [firstHit_skip _ (· = 'C') hfC ['A', ':'] (by decide) _]
    rw [show ((w1 ++ x ++ w2 ++ (['B', ':'] ++
        (w3 ++ y ++ w4 ++ (['C', ':'] ++ (w5 ++ z)))))) =
      w1 ++ (x ++ (w2 ++ (['B', ':'] ++
        (w3 ++ y ++ w4 ++ (['C', ':'] ++ (w5 ++ z)))))) by simp [List.append_assoc]]
    rw [firstHit_skip _ (· = 'C') hfC w1
      (fun c hc => ws_ne_char (hw1 c hc) (by decide)) _]
    rw [firstHit_skip2 _ 'C' (fun u h => h) x hxC _ hheadB]
    rw [firstHit_skip _ (· = 'C') hfC w2
      (fun c hc => ws_ne_char (hw2 c hc) (by decide)) _]
    rw [firstHit_skip _ (· = 'C') hfC ['B', ':'] (by decide) _]
    rw [show ((w3 ++ y ++ w4 ++ (['C', ':'] ++ (w5 ++ z)))) =
      w3 ++ (y ++ (w4 ++ (['C', ':'] ++ (w5 ++ z)))) by simp [List.append_assoc]]
    rw [firstHit_skip _ (· = 'C') hfC w3
      (fun c hc => ws_ne_char (hw3 c hc) (by decide)) _]
    rw [firstHit_skip2 _ 'C' (fun u h => h) y hyC _ hheadC]
    rw [firstHit_skip _ (· = 'C') hfC w4
      (fun c hc => ws_ne_char (hw4 c hc) (by decide)) _]
    rw [show ((['C', ':'] ++ (w5 ++ z)) : List Char) = 'C' :: ':' :: (w5 ++ z) from rfl]
    rw [firstHit_cons_pos (by simp [List.isPrefixOf])]
    simp [Option.map_map]
    omega
  -- the three extracted values
  have hEVA : extractValue ['A'] ['B']
      (w0 ++ (['A', ':'] ++ (w1 ++ x ++ w2 ++ (['B', ':'] ++
        (w3 ++ y ++ w4 ++ (['C', ':'] ++ (w5 ++ z))))))) = some x := by
    unfold extractValue
    rw [hA]
    have hdropA : (w0 ++ (['A', ':'] ++ (w1 ++ x ++ w2 ++ (['B', ':'] ++
        (w3 ++ y ++ w4 ++ (['C', ':'] ++ (w5 ++ z))))))).drop
          (w0.length + (['A'] : List Char).length + 1) =
        w1 ++ x ++ w2 ++ (['B', ':'] ++ (w3 ++ y ++ w4 ++ (['C', ':'] ++ (w5 ++ z)))) := by
      rw [show (w0 ++ (['A', ':'] ++ (w1 ++ x ++ w2 ++ (['B', ':'] ++
          (w3 ++ y ++ w4 ++ (['C', ':'] ++ (w5 ++ z))))))) =
        (w0 ++ ['A', ':']) ++ (w1 ++ x ++ w2 ++ (['B', ':'] ++
          (w3 ++ y ++ w4 ++ (['C', ':'] ++ (w5 ++ z))))) by simp [List.append_assoc]]
      rw [show w0.length + (['A'] : List Char).length + 1 = (w0 ++ ['A', ':']).length by
        simp]
      exact List.drop_left _ _
    dsimp only
    rw [hdropA]
    exact extractValue_segment 'B' (by decide) (by decide) w1 x w2 _ hw1 hw2 hxB hxh' hxl'
  have hEVB : extractValue ['B'] ['C']
      (w0 ++ (['A', ':'] ++ (w1 ++ x ++ w2 ++ (['B', ':'] ++
        (w3 ++ y ++ w4 ++ (['C', ':'] ++ (w5 ++ z))))))) = some y := by
    unfold extractValue
    rw [hB]
    have hdropB : (w0 ++ (['A', ':'] ++ (w1 ++ x ++ w2 ++ (['B', ':'] ++
        (w3 ++ y ++ w4 ++ (['C', ':'] ++ (w5 ++ z))))))).drop
          (w0.length + 2 + w1.length + x.length + w2.length +
            (['B'] : List Char).length + 1) =
        w3 ++ y ++ w4 ++ (['C', ':'] ++ (w5 ++ z)) := by
      rw [show (w0 ++ (['A', ':'] ++ (w1 ++ x ++ w2 ++ (['B', ':'] ++
          (w3 ++ y ++ w4 ++ (['C', ':'] ++ (w5 ++ z))))))) =
        (w0 ++ ['A', ':'] ++ w1 ++ x ++ w2 ++ ['B', ':']) ++
          (w3 ++ y ++ w4 ++ (['C', ':'] ++ (w5 ++ z))) by simp [List.append_assoc]]
      rw [show w0.length + 2 + w1.length + x.length + w2.length +
          (['B'] : List Char).length + 1 =
        (w0 ++ ['A', ':'] ++ w1 ++ x ++ w2 ++ ['B', ':']).length by simp; omega]
      exact List.drop_left _ _
    dsimp only
    rw [hdropB]
    exact extractValue_segment 'C' (by decide) (by decide) w3 y w4 _ hw3 hw4 hyC hyh' hyl'
  have hEVC : extractLast ['C']
      (w0 ++ (['A', ':'] ++ (w1 ++ x ++ w2 ++ (['B', ':'] ++
        (w3 ++ y ++ w4 ++ (['C', ':'] ++ (w5 ++ z))))))) = some z := by
    unfold extractLast
    rw [show (findOcc ((['C'] : List Char) ++ [':'])) = findOcc ['C', ':'] from rfl]
    rw [hC]
    have hdropC : (w0 ++ (['A', ':'] ++ (w1 ++ x ++ w2 ++ (['B', ':'] ++
        (w3 ++ y ++ w4 ++ (['C', ':'] ++ (w5 ++ z))))))).drop
          (w0.length + 2 + w1.length + x.length + w2.length + 2 +
            w3.length + y.length + w4.length + (['C'] : List Char).length + 1) =
        w5 ++ z := by
      rw [show (w0 ++ (['A', ':'] ++ (w1 ++ x ++ w2 ++ (['B', ':'] ++
          (w3 ++ y ++ w4 ++ (['C', ':'] ++ (w5 ++ z))))))) =
        (w0 ++ ['A', ':'] ++ w1 ++ x ++ w2 ++ ['B', ':'] ++ w3 ++ y ++ w4 ++ ['C', ':'])
          ++ (w5 ++ z) by simp [List.append_assoc]]
      rw [show w0.length + 2 + w1.length + x.length + w2.length + 2 +
          w3.length + y.length + w4.length + (['C'] : List Char).length + 1 =
        (w0 ++ ['A', ':'] ++ w1 ++ x ++ w2 ++ ['B', ':'] ++ w3 ++ y ++ w4 ++
          ['C', ':']).length by simp; omega]
      exact List.drop_left _ _
    dsimp only
    rw [hdropC]
    rw [pstrip_ws_append w5 z hw5 hzh' hzl']
  -- assemble the dict
  simp only [extract_key_content_base, withNext, List.foldl_cons, List.foldl_nil]
  rw [show entryBase (w0 ++ (['A', ':'] ++ (w1 ++ x ++ w2 ++ (['B', ':'] ++
      (w3 ++ y ++ w4 ++ (['C', ':'] ++ (w5 ++ z))))))) (['A'], some ['B']) =
      (['a'], x) by simp only [entryBase]; rw [hEVA]; rfl]
  rw [show entryBase (w0 ++ (['A', ':'] ++ (w1 ++ x ++ w2 ++ (['B', ':'] ++
      (w3 ++ y ++ w4 ++ (['C', ':'] ++ (w5 ++ z))))))) (['B'], some ['C']) =
      (['b'], y) by simp only [entryBase]; rw [hEVB]; rfl]
  rw [show entryBase (w0 ++ (['A', ':'] ++ (w1 ++ x ++ w2 ++ (['B', ':'] ++
      (w3 ++ y ++ w4 ++ (['C', ':'] ++ (w5 ++ z))))))) (['C'], none) =
      (['c'], z) by simp only [entryBase]; rw [hEVC]; rfl]
  simp [dinsert, dlookup, dupdate]

theorem extract_key_content_partition_witness :
    extract_key_content_base (sChars "A: foo\nB:  bar baz\n C: qux")
      [['A'], ['B'], ['C']] =
      [(['a'], .s (sChars "foo")), (['b'], .s (sChars "bar baz")),
        (['c'], .s (sChars "qux"))] := by
  have h := extract_key_content_partition [] [' '] ['\n'] [' ', ' '] ['\n', ' '] [' ']
    (sChars "foo") (sChars "bar baz") (sChars "qux")
    (by decide) (by decide) (by decide) (by decide) (by decide) (by decide)
    (by decide) (by decide) (by decide)
    (by decide) (by decide) (by decide) (by decide) (by decide) (by decide)
  rw [show sChars "A: foo\nB:  bar baz\n C: qux" =
    ([] ++ (['A', ':'] ++ ([' '] ++ sChars "foo" ++ ['\n'] ++ (['B', ':'] ++
      ([' ', ' '] ++ sChars "bar baz" ++ ['\n', ' '] ++
        (['C', ':'] ++ ([' '] ++ sChars "qux"))))))) by decide]
  exact h

/-!
## Key discovery and the Acordao record builder
(src/documents/document.py `_get_keys`, `_extract_key_content`,
`validate_municipio`, `validate_controladoria`; src/documents/acordao.py
`_extract_data`)

`_get_keys` scans `r"(?!PA:)\w*[\(\w*\)]*(?=:\s)"` with
`re.MULTILINE | re.IGNORECASE` via `findall`: at each position not starting
with `PA:` (case-insensitively), the maximal run over the class
`\w ∪ {(,),*}` is a match when it is immediately followed by `:` and a
whitespace character (the lookahead token must fit entirely, and any
shorter run would end at a class character, never at `:`, so the greedy
run is the only candidate).  Empty matches (at a `:` itself) are produced
and later dropped by the `len(key) > 1` filter.
-/

def keyClassC (c : Char) : Bool := isWordC c || c = '(' || c = ')' || c = '*'

def get_keys_scan : Nat → List Char → List (List Char)
  | 0, _ => []
  | _, [] => []
  | fuel + 1, c :: t =>
    if toLowerC c = 'p' &&
        (match t with | d :: ':' :: _ => toLowerC d = 'a' | _ => false) then
      get_keys_scan fuel t
    else
      match (c :: t).dropWhile keyClassC with
      | ':' :: w :: r2 =>
        if isWS w then
          ((c :: t).takeWhile keyClassC) ::
            get_keys_scan fuel
              (if ((c :: t).takeWhile keyClassC).isEmpty then t else ':' :: w :: r2)
        else get_keys_scan fuel t
      | _ => get_keys_scan fuel t

/-- `DocumentoBase._get_keys`: scan, then filter through the stoplist,
de-duplicate, and keep keys of length > 1 starting with an uppercase
letter. -/
def get_keys (text : List Char) : List (List Char) :=
  (get_keys_scan text.length text).foldl
    (fun acc key0 =>
      let key := pstrip key0
      if !( [sChars "cpf", sChars "endereço", sChars "(cpf",
              sChars "(cpf)"].contains (lowerL key)) && !(acc.contains key) then
        if 1 < key.length &&
            (match key with | k0 :: _ => isUpperC k0 | [] => false) then
          acc ++ [key]
        else acc
      else acc) []

/-- The fixed gazetteer of municipality names (document.py lines 217-362). -/
def municipiosL : List (List Char) :=
  [sChars "Abaetetuba",
   sChars "Abel Figueiredo",
   sChars "Acará",
   sChars "Afuá",
   sChars "Água Azul do Norte",
   sChars "Alenquer",
   sChars "Almeirim",
   sChars "Altamira",
   sChars "Anajás",
   sChars "Ananindeua",
   sChars "Anapu",
   sChars "Augusto Corrêa",
   sChars "Aurora do Pará",
   sChars "Aveiro",
   sChars "Bagre",
   sChars "Baião",
   sChars "Bannach",
   sChars "Barcarena",
   sChars "Belém",
   sChars "Belterra",
   sChars "Benevides",
   sChars "Bom Jesus do Tocantins",
   sChars "Bonito",
   sChars "Bragança",
   sChars "Brasil Novo",
   sChars "Brejo Grande do Araguaia",
   sChars "Breu Branco",
   sChars "Breves",
   sChars "Bujaru",
   sChars "Cachoeira do Arari",
   sChars "Cachoeira do Piriá",
   sChars "Cametá",
   sChars "Canaã dos Carajás",
   sChars "Capanema",
   sChars "Capitão Poço",
   sChars "Castanhal",
   sChars "Chaves",
   sChars "Colares",
   sChars "Conceição do Araguaia",
   sChars "Concórdia do Pará",
   sChars "Cumaru do Norte",
   sChars "Curionópolis",
   sChars "Curralinho",
   sChars "Curuá",
   sChars "Curuçá",
   sChars "Dom Eliseu",
   sChars "Eldorado do Carajás",
   sChars "Faro",
   sChars "Floresta do Araguaia",
   sChars "Garrafão do Norte",
   sChars "Goianésia do Pará",
   sChars "Gurupá",
   sChars "Igarapé-Açu",
   sChars "Igarapé-Miri",
   sChars "Inhangapi",
   sChars "Ipixuna do Pará",
   sChars "Irituia",
   sChars "Itaituba",
   sChars "Itupiranga",
   sChars "Jacareacanga",
   sChars "Jacundá",
   sChars "Juruti",
   sChars "Limoeiro do Ajuru",
   sChars "Mãe do Rio",
   sChars "Magalhães Barata",
   sChars "Marabá",
   sChars "Maracanã",
   sChars "Marapanim",
   sChars "Marituba",
   sChars "Medicilândia",
   sChars "Melgaço",
   sChars "Mocajuba",
   sChars "Moju",
   sChars "Mojuí dos Campos",
   sChars "Monte Alegre",
   sChars "Muaná",
   sChars "Nova Esperança do Piriá",
   sChars "Nova Ipixuna",
   sChars "Nova Timboteua",
   sChars "Novo Progresso",
   sChars "Novo Repartimento",
   sChars "Óbidos",
   sChars "Oeiras do Pará",
   sChars "Oriximiná",
   sChars "Ourém",
   sChars "Ourilândia do Norte",
   sChars "Pacajá",
   sChars "Palestina do Pará",
   sChars "Paragominas",
   sChars "Parauapebas",
   sChars "Pau D\x27Arco",
   sChars "Peixe-Boi",
   sChars "Piçarra",
   sChars "Placas",
   sChars "Ponta de Pedras",
   sChars "Portel",
   sChars "Porto de Moz",
   sChars "Prainha",
   sChars "Primavera",
   sChars "Quatipuru",
   sChars "Redenção",
   sChars "Rio Maria",
   sChars "Rondon do Pará",
   sChars "Rurópolis",
   sChars "Salinópolis",
   sChars "Salvaterra",
   sChars "Santa Bárbara do Pará",
   sChars "Santa Cruz do Arari",
   sChars "Santa Isabel do Pará",
   sChars "Santa Luzia do Pará",
   sChars "Santa Maria das Barreiras",
   sChars "Santa Maria do Pará",
   sChars "Santana do Araguaia",
   sChars "Santarém",
   sChars "Santarém Novo",
   sChars "Santo Antônio do Tauá",
   sChars "São Caetano de Odivelas",
   sChars "São Domingos do Araguaia",
   sChars "São Domingos do Capim",
   sChars "São Félix do Xingu",
   sChars "São Francisco do Pará",
   sChars "São Geraldo do Araguaia",
   sChars "São João da Ponta",
   sChars "São João de Pirabas",
   sChars "São João do Araguaia",
   sChars "São Miguel do Guamá",
   sChars "São Sebastião da Boa Vista",
   sChars "Sapucaia",
   sChars "Senador José Porfírio",
   sChars "Soure",
   sChars "Tailândia",
   sChars "Terra Alta",
   sChars "Terra Santa",
   sChars "Tomé-Açu",
   sChars "Tracuateua",
   sChars "Trairão",
   sChars "Tucumã",
   sChars "Tucuruí",
   sChars "Ulianópolis",
   sChars "Uruará",
   sChars "Vigia",
   sChars "Viseu",
   sChars "Vitória do Xingu",
   sChars "Xinguara"]

/-- Case-insensitive literal prefix, for `re.IGNORECASE` on the used
alphabet. -/
def ciIsPrefixOf : List Char → List Char → Bool
  | [], _ => true
  | _ :: _, [] => false
  | p :: ps, c :: cs => (toLowerC p = toLowerC c) && ciIsPrefixOf ps cs

/-- `\b` after a match: the next character, if any, is a non-word one. -/
def boundaryAfter (rest : List Char) : Bool :=
  match rest.head? with
  | some c => !isWordC c
  | none => true

/-- Try each alternation branch in order at one position. -/
def findName (names : List (List Char)) (u : List Char) : Option (List Char) :=
  match names with
  | [] => none
  | n :: ns =>
    if ciIsPrefixOf n u && boundaryAfter (u.drop n.length) then some (u.take n.length)
    else findName ns u

def municipioScan : Nat → Bool → List Char → Option (List Char)
  | 0, _, _ => none
  | _, _, [] => none
  | fuel + 1, prevWord, c :: t =>
    match (if prevWord then none else findName municipiosL (c :: t)) with
    | some m => some m
    | none => municipioScan fuel (isWordC c) t

/-- `validate_municipio`: search `\b(name1|...)\b` case-insensitively and
return the matched text, else the original value. -/
def validate_municipio (key_value : List Char) : List Char :=
  match municipioScan key_value.length false key_value with
  | some m => m
  | none => key_value

/-- One position of `(\d.\sControladoria)`: a digit, any character except a
newline, a whitespace character, then the literal. -/
def matchContrAt (u : List Char) : Option (List Char) :=
  match u with
  | d :: a :: w :: rest =>
    if isDigitC d && !(a = '\n') && isWS w &&
        (sChars "Controladoria").isPrefixOf rest then
      some (d :: a :: w :: sChars "Controladoria")
    else none
  | _ => none

/-- A generic `re.search` scan for a matcher returning the group text. -/
def scanFor (m : List Char → Option (List Char)) : Nat → List Char → Option (List Char)
  | 0, _ => none
  | _, [] => none
  | fuel + 1, c :: t =>
    match m (c :: t) with
    | some g => some g
    | none => scanFor m fuel t

def validate_controladoria (key_value : List Char) : List Char :=
  match scanFor matchContrAt key_value.length key_value with
  | some g => g
  | none => key_value

/-- One loop iteration of `DocumentoBase._extract_key_content`
(document.py): the município/instrução validators run on the stripped
group, and `clean_text` is applied to the stored value. -/
def entryDoc (text : List Char) : List Char × Option (List Char) → List Char × List Char
  | (key, some nextKey) =>
    match extractValue key nextKey text with
    | some v =>
      let v1 := if lowerL key = sChars "município" then validate_municipio v else v
      let v2 := if lowerL key = sChars "instrução" then validate_controladoria v1 else v1
      (normKey key, clean_text_doc v2)
    | none => (lowerL key, [])
  | (key, none) =>
    match extractLast key text with
    | some v =>
      let v1 := if lowerL key = sChars "município" then validate_municipio v else v
      let v2 := if lowerL key = sChars "instrução" then validate_controladoria v1 else v1
      (normKey key, clean_text_doc v2)
    | none => (lowerL key, [])

/-- `DocumentoBase._extract_key_content` of document.py. -/
def extract_key_content_doc (text : List Char) (keys : List (List Char)) : Dict :=
  (withNext keys).foldl
    (fun d kn => dinsert (entryDoc text kn).1 (.s (entryDoc text kn).2) d) []

/-- `re.search(r"ACÓRDÃO Nº (\d+\.\d+)", ...)` at one position. -/
def matchNumeroAt (u : List Char) : Option (List Char) :=
  match litM (sChars "ACÓRDÃO Nº ") u with
  | none => none
  | some r1 =>
    let d1 := r1.takeWhile isDigitC
    if d1.isEmpty then none
    else
      match litM (sChars ".") (r1.dropWhile isDigitC) with
      | none => none
      | some r2 =>
        let d2 := r2.takeWhile isDigitC
        if d2.isEmpty then none else some (d1 ++ '.' :: d2)

def numeroSearch (s : List Char) : Option (List Char) :=
  scanFor matchNumeroAt s.length s

def isDigDot (c : Char) : Bool := isDigitC c || c = '.'

/-- `PROCESSO\s+N[º°]\s+([\d\.]+(?:\s*\([\d\.]+\))?)` with
`re.IGNORECASE`, at one position; the group includes the optional
parenthesised part when it matches. -/
def matchProcessoAt (u : List Char) : Option (List Char) :=
  if ciIsPrefixOf (sChars "PROCESSO") u then
    match plusM isWS (u.drop 8) with
    | none => none
    | some r2 =>
      match r2 with
      | n :: o :: r3 =>
        if toLowerC n = 'n' && (o = 'º' || o = '°') then
          match plusM isWS r3 with
          | none => none
          | some r4 =>
            let g1 := r4.takeWhile isDigDot
            if g1.isEmpty then none
            else
              let r5 := r4.dropWhile isDigDot
              match r5.dropWhile isWS with
              | '(' :: r6 =>
                let g2 := r6.takeWhile isDigDot
                if g2.isEmpty then some g1
                else
                  match r6.dropWhile isDigDot with
                  | ')' :: _ => some (g1 ++ r5.takeWhile isWS ++ '(' :: g2 ++ [')'])
                  | _ => some g1
              | _ => some g1
        else none
      | _ => none
  else none

def processoSearch (s : List Char) : Option (List Char) :=
  scanFor matchProcessoAt s.length s

def mesesPT : List (List Char) :=
  [sChars "janeiro", sChars "fevereiro", sChars "março", sChars "abril",
   sChars "maio", sChars "junho", sChars "julho", sChars "agosto",
   sChars "setembro", sChars "outubro", sChars "novembro", sChars "dezembro"]

/-- `(\d+(?:\s+a\s+\d+)?\s+de\s+(?:janeiro|...)\s+de\s+\d{4})` at one
position; returns the whole matched group. -/
def matchDateAt (u : List Char) : Option (List Char) :=
  let d1 := u.takeWhile isDigitC
  if d1.isEmpty then none
  else
    let r1 := u.dropWhile isDigitC
    let r2 :=
      match plusM isWS r1 with
      | some rw =>
        match rw with
        | 'a' :: r3 =>
          match plusM isWS r3 with
          | some r4 =>
            if (r4.takeWhile isDigitC).isEmpty then r1 else r4.dropWhile isDigitC
          | none => r1
        | _ => r1
      | none => r1
    match plusM isWS r2 with
    | none => none
    | some r5 =>
      if (sChars "de").isPrefixOf r5 then
        match plusM isWS (r5.drop 2) with
        | none => none
        | some r6 =>
          match mesesPT.find? (fun m => m.isPrefixOf r6) with
          | none => none
          | some mes =>
            match plusM isWS (r6.drop mes.length) with
            | none => none
            | some r8 =>
              if (sChars "de").isPrefixOf r8 then
                match plusM isWS (r8.drop 2) with
                | none => none
                | some r9 =>
                  match exactM isDigitC 4 r9 with
                  | none => none
                  | some rf => some (u.take (u.length - rf.length))
              else none
      else none

/-- `re.search(f"Sessão Eletrônica.*?{date_pattern}", ..., re.DOTALL)`:
lazy gap, so the group is the first date match after the anchor. -/
def matchSessaoAt (u : List Char) : Option (List Char) :=
  match litM (sChars "Sessão Eletrônica") u with
  | none => none
  | some r => scanFor matchDateAt r.length r

def sessaoSearch (s : List Char) : Option (List Char) :=
  scanFor matchSessaoAt s.length s

def dateSearch (s : List Char) : Option (List Char) :=
  scanFor matchDateAt s.length s

/-- The issue-level metadata fields copied into every record. -/
structure Meta where
  publicacao : List Char
  numero_diario : List Char
  internet_path : List Char
  local_path : List Char
  pdf_file : List Char

def designatedFields : List (List Char) :=
  [sChars "ordenador", sChars "responsavel", sChars "representante_legal",
   sChars "interessado", sChars "recorrente"]

/-- One step of the LGPD redaction loop of `_extract_data`: if the
designated field is present with a truthy (non-empty) string value,
replace it by its redacted form. -/
def redactStep (d : Dict) (fld : List Char) : Dict :=
  match dlookup fld d with
  | some (.s v) => if v.isEmpty then d else dupdate fld (.s (redactCPF v)) d
  | _ => d

/-- The LGPD redaction loop of `_extract_data`. -/
def redactPass (d : Dict) : Dict :=
  designatedFields.foldl redactStep d

/-- The loop body of `Acordao._extract_data` for one section: `None` when
the mandatory `ACÓRDÃO Nº` number pattern is absent (the section is
skipped), otherwise the `data_dict` of the record (nothing in the model
raises: `DocumentoDiarioOficial` accepts arbitrary extra fields). -/
def buildRecord (categoria : List Char) (meta : Meta) (secao : List Char) :
    Option Dict :=
  match numeroSearch secao with
  | none => none
  | some num =>
    let d1 := dinsert (sChars "numero") (.s num)
      [(sChars "categoria", .s categoria)]
    let d2 :=
      match processoSearch secao with
      | some p => dinsert (sChars "processo") (.s p) d1
      | none => d1
    let d3 := (extract_key_content_doc secao (get_keys secao)).foldl
      (fun d kv => dinsert (lowerL kv.1) kv.2 d) d2
    let d4 :=
      match sessaoSearch secao with
      | some g => dinsert (sChars "sessao") (.s (pstrip g)) d3
      | none =>
        match dateSearch secao with
        | some g => dinsert (sChars "sessao") (.s (pstrip g)) d3
        | none => d3
    let d5 := redactPass d4
    let d6 := dinsert (sChars "sample_texto")
      (.s (secao.take 100 ++ sChars "...")) d5
    let d7 := dinsert (sChars "publicacao") (.s meta.publicacao) d6
    let d8 := dinsert (sChars "numero_diario") (.s meta.numero_diario) d7
    let d9 := dinsert (sChars "ioepa") (.s meta.internet_path) d8
    some (dinsert (sChars "local")
      (.d [(sChars "caminho", meta.local_path), (sChars "pdf", meta.pdf_file)]) d9)

/-- The per-section loop of `Acordao._extract_data`: sections lacking the
mandatory number are skipped (logged `continue` in the source), the rest
produce records in order. -/
def extract_data (categoria : List Char) (meta : Meta)
    (sections : List (List Char)) : List Dict :=
  sections.foldl
    (fun acc s => (buildRecord categoria meta s).elim acc (fun r => acc ++ [r])) []

/-!
## Counting records (`Acordao._extract_data` loop structure)
-/

theorem foldl_opt_append {α β : Type} (f : α → Option β) :
    ∀ (l : List α) (acc : List β),
      l.foldl (fun acc s => (f s).elim acc (fun r => acc ++ [r])) acc
        = acc ++ l.filterMap f
  | [], acc => by simp
  | x :: l, acc => by
    cases hx : f x with
    | some r =>
      simp [List.foldl_cons, hx, List.filterMap_cons,
        foldl_opt_append f l (acc ++ [r])]
    | none =>
      simp [List.foldl_cons, hx, List.filterMap_cons, foldl_opt_append f l acc]

theorem length_filterMap_sub {α β : Type} (f : α → Option β) (l : List α) :
    (l.filterMap f).length = l.length - (l.filter (fun s => (f s).isNone)).length := by
  induction l with
  | nil => rfl
  | cons x l ih =>
    have hle : (l.filter (fun s => (f s).isNone)).length ≤ l.length :=
      List.length_filter_le _ _
    cases hx : f x with
    | some r =>
      simp [List.filterMap_cons, hx, List.filter_cons, List.length_cons, ih]
      omega
    | none =>
      simp [List.filterMap_cons, hx, List.filter_cons, List.length_cons, ih]

theorem buildRecord_none_iff (categoria : List Char) (meta : Meta) (s : List Char) :
    (buildRecord categoria meta s).isNone = (numeroSearch s).isNone := by
  unfold buildRecord
  cases numeroSearch s <;> rfl

/-- C3: a section in which the `ACÓRDÃO Nº \d+\.\d+` pattern has no match
produces no record (the loop `continue`s; nothing in the record builder
fails on the remaining fields), so `_extract_data` returns exactly one
record per section that has the number: the records are the `filterMap` of
the per-section builder, and their count is the section count minus the
count of sections lacking the number. -/
theorem extract_data_skips_missing_numero (categoria : List Char) (meta : Meta)
    (sections : List (List Char)) :
    extract_data categoria meta sections
        = sections.filterMap (buildRecord categoria meta) ∧
    (extract_data categoria meta sections).length
        = sections.length
          - (sections.filter (fun s => (numeroSearch s).isNone)).length := by
  have h1 : extract_data categoria meta sections
      = sections.filterMap (buildRecord categoria meta) :=
    foldl_opt_append (buildRecord categoria meta) sections []
  refine ⟨h1, ?_⟩
  rw [h1, length_filterMap_sub]
  have h2 : (fun s => (buildRecord categoria meta s).isNone)
      = fun s => (numeroSearch s).isNone :=
    funext fun s => buildRecord_none_iff categoria meta s
  rw [h2]

/-!
## The fixed sample span of the specification
-/

def meta9 : Meta :=
  ⟨sChars "03/03/2025", sChars "1.234", sChars "https://example.org/diario.pdf",
   sChars "/data/diario.pdf", sChars "diario.pdf"⟩

def sampleC9 : List Char :=
  sChars "ACÓRDÃO Nº 46.073 Processo nº 244012005-00 Assunto: Recurso de Reconsideração Município: Castanhal"

/-- C9 (counterexample): on the fixed sample span the record's `processo`
field is `"244012005"`, not the claimed `"244012005-00"`: the capture class
`[\d\.]` of the processo pattern contains digits and dots only, no hyphen,
so the match stops before `-00`. -/
theorem sample_processo_counterexample :
    ((buildRecord (sChars "acordao") meta9 sampleC9).map
        (fun r => dlookup (sChars "processo") r))
      = some (some (.s (sChars "244012005"))) ∧
    sChars "244012005" ≠ sChars "244012005-00" :=
  ⟨by decide, by decide⟩

/-- C9 (amended): on the fixed sample span the produced record has
`numero = "46.073"`, `processo = "244012005"` (the hyphenless capture
class truncates the claimed `"244012005-00"`), and
`município = "Castanhal"`. -/
theorem sample_record_fields :
    (buildRecord (sChars "acordao") meta9 sampleC9).map
        (fun r => (dlookup (sChars "numero") r, dlookup (sChars "processo") r,
          dlookup (sChars "município") r))
      = some (some (.s (sChars "46.073")), some (.s (sChars "244012005")),
          some (.s (sChars "Castanhal"))) := by decide

/-!
## Redaction removes every CPF-shaped substring

A match of `\d{3}\.\d{3}\.\d{3}-?\d{2}` consists solely of digits, dots
and a dash, starts with a digit, and keeps matching under any extension of
the text; the marker `[REDIGIDO]` contains no digit.  Together these give:
after `_redact_personal_data` no position of the output matches the
pattern.
-/

def isCPFChar (c : Char) : Bool := isDigitC c || c = '.' || c = '-'

theorem redactCPFGo_zero (t : List Char) : redactCPFGo 0 t = t := by
  cases t <;> rfl

theorem redactCPFGo_cons_some {fuel : Nat} {c : Char} {t : List Char} {L : Nat}
    (hm : matchCPFAt (c :: t) = some L) :
    redactCPFGo (fuel + 1) (c :: t)
      = sChars "[REDIGIDO]" ++ redactCPFGo fuel (t.drop (L - 1)) := by
  simp [redactCPFGo, hm]

theorem redactCPFGo_cons_none {fuel : Nat} {c : Char} {t : List Char}
    (hm : matchCPFAt (c :: t) = none) :
    redactCPFGo (fuel + 1) (c :: t) = c :: redactCPFGo fuel t := by
  simp [redactCPFGo, hm]

set_option maxHeartbeats 2000000 in
theorem matchCPFAt_anatomy (s : List Char) (L : Nat)
    (h : matchCPFAt s = some L) :
    ∃ pre r, s = pre ++ r ∧ pre.length = L ∧ pre.all isCPFChar = true ∧
      (∃ c0 p, pre = c0 :: p ∧ isDigitC c0 = true) ∧
      (∀ t', matchCPFAt (pre ++ t') = some L) := by
  rw [matchCPFAt.eq_def] at h
  split at h
  case _ p1 p2 p3 p4 p5 p6 p7 p8 p9 t =>
    split at h
    case isFalse => exact absurd h (by simp)
    case isTrue hd =>
      simp only [Bool.and_eq_true] at hd
      obtain ⟨⟨⟨⟨⟨⟨⟨⟨h1, h2⟩, h3⟩, h4⟩, h5⟩, h6⟩, h7⟩, h8⟩, h9⟩ := hd
      split at h
      · -- t = j :: rest
        rename_i j rest
        split at h
        · -- j = '-'
          rename_i hj
          subst hj
          split at h
          · -- rest = k1 :: k2 :: t2
            rename_i k1 k2 t2
            split at h
            · rename_i hk
              simp only [Bool.and_eq_true] at hk
              have hL : L = 14 := (Option.some.inj h).symm
              subst hL
              refine ⟨[p1, p2, p3, '.', p4, p5, p6, '.', p7, p8, p9, '-', k1, k2],
                t2, by simp, by simp, ?_, ⟨p1, _, rfl, h1⟩, ?_⟩
              · simp [isCPFChar, h1, h2, h3, h4, h5, h6, h7, h8, h9, hk.1, hk.2]
              · intro t'
                simp [matchCPFAt, h1, h2, h3, h4, h5, h6, h7, h8, h9, hk.1, hk.2]
            · exact absurd h (by simp)
          · exact absurd h (by simp)
        · -- j ≠ '-'
          rename_i hj
          split at h
          · -- rest = k2 :: t2
            rename_i k2 t2
            split at h
            · rename_i hk
              simp only [Bool.and_eq_true] at hk
              have hL : L = 13 := (Option.some.inj h).symm
              subst hL
              refine ⟨[p1, p2, p3, '.', p4, p5, p6, '.', p7, p8, p9, j, k2],
                t2, by simp, by simp, ?_, ⟨p1, _, rfl, h1⟩, ?_⟩
              · simp [isCPFChar, h1, h2, h3, h4, h5, h6, h7, h8, h9, hk.1, hk.2]
              · intro t'
                simp [matchCPFAt, h1, h2, h3, h4, h5, h6, h7, h8, h9, hk.1,
                  hk.2, hj]
            · exact absurd h (by simp)
          · exact absurd h (by simp)
      · -- t = []
        exact absurd h (by simp)
  case _ =>
    exact absurd h (by simp)
theorem matchCPFAt_digit_head (c : Char) (u : List Char)
    (h : (matchCPFAt (c :: u)).isSome = true) : isDigitC c = true := by
  cases hm : matchCPFAt (c :: u) with
  | none => rw [hm] at h; exact absurd h (by simp)
  | some L =>
    obtain ⟨pre, r, heq, _, _, ⟨c0, p, hpre, hdig⟩, _⟩ :=
      matchCPFAt_anatomy _ _ hm
    rw [hpre, List.cons_append] at heq
    injection heq with hc _
    rw [hc]
    exact hdig

/-- Characters the redaction pass has already emitted agree with the input
as long as they stay inside the CPF character class (the marker leaves the
class immediately). -/
theorem redactCPFGo_take_agree :
    ∀ (fuel : Nat) (t : List Char) (n : Nat),
      ((redactCPFGo fuel t).take n).all isCPFChar = true →
      (redactCPFGo fuel t).take n = t.take n
  | 0, t, n, _ => by rw [redactCPFGo_zero]
  | fuel + 1, [], n, _ => by rfl
  | fuel + 1, c :: t, n, hall => by
    cases hm : matchCPFAt (c :: t) with
    | some L =>
      rw [redactCPFGo_cons_some hm] at hall ⊢
      cases n with
      | zero => rfl
      | succ m =>
        exfalso
        have hhd : isCPFChar '[' = true := by
          have h0 : ((sChars "[REDIGIDO]" ++
              redactCPFGo fuel (t.drop (L - 1))).take (m + 1))
              = '[' :: ((sChars "REDIGIDO]" ++
                  redactCPFGo fuel (t.drop (L - 1))).take m) := rfl
          rw [h0, List.all_cons, Bool.and_eq_true] at hall
          exact hall.1
        exact absurd hhd (by decide)
    | none =>
      rw [redactCPFGo_cons_none hm] at hall ⊢
      cases n with
      | zero => rfl
      | succ m =>
        rw [List.take_succ_cons, List.all_cons, Bool.and_eq_true] at hall
        rw [List.take_succ_cons, List.take_succ_cons,
          redactCPFGo_take_agree fuel t m hall.2]

/-- If a position of the input does not start a CPF match, the same
position of the redacted output does not either: any match there would
consist of CPF-class characters, which the output only carries where it
agrees with the input, so the match would replay on the input. -/
theorem matchCPFAt_redact_none (fuel : Nat) (c : Char) (t : List Char)
    (hm : matchCPFAt (c :: t) = none) :
    matchCPFAt (c :: redactCPFGo fuel t) = none := by
  cases hsome : matchCPFAt (c :: redactCPFGo fuel t) with
  | none => rfl
  | some L =>
    exfalso
    obtain ⟨pre, r, heq, hlen, hallpre, ⟨c0, p, hpre, hdig⟩, hreplay⟩ :=
      matchCPFAt_anatomy _ _ hsome
    rw [hpre, List.cons_append] at heq
    injection heq with hc hout
    have hallp : p.all isCPFChar = true := by
      rw [hpre, List.all_cons, Bool.and_eq_true] at hallpre
      exact hallpre.2
    have htake : (redactCPFGo fuel t).take p.length = p := by
      rw [hout]; exact List.take_left p r
    have hagree := redactCPFGo_take_agree fuel t p.length
      (by rw [htake]; exact hallp)
    rw [htake] at hagree
    have hrep := hreplay (t.drop p.length)
    rw [hpre, List.cons_append] at hrep
    have ht2 : p ++ t.drop p.length = t := by
      conv_rhs => rw [← List.take_append_drop p.length t]
      rw [← hagree]
    rw [ht2, ← hc, hm] at hrep
    exact absurd hrep (by simp)

/-- After redaction no position matches the CPF pattern. -/
theorem cpfSearch_redactGo :
    ∀ (fuel : Nat) (t : List Char), t.length ≤ fuel →
      firstHit (fun u => (matchCPFAt u).isSome) (redactCPFGo fuel t) = none
  | 0, t, h => by
    have ht : t = [] := List.length_eq_zero.mp (Nat.le_zero.mp h)
    subst ht; rfl
  | fuel + 1, [], _ => by rfl
  | fuel + 1, c :: t, h => by
    have ht : t.length ≤ fuel := by
      simp only [List.length_cons] at h; omega
    cases hm : matchCPFAt (c :: t) with
    | some L =>
      rw [redactCPFGo_cons_some hm]
      rw [firstHit_skip (fun u => (matchCPFAt u).isSome) isDigitC
        (fun c u hcu => matchCPFAt_digit_head c u hcu)
        (sChars "[REDIGIDO]") (by decide) _]
      rw [cpfSearch_redactGo fuel (t.drop (L - 1))
        (le_trans ((List.drop_sublist _ _).length_le) ht)]
      rfl
    | none =>
      rw [redactCPFGo_cons_none hm]
      have hf : ((fun u => (matchCPFAt u).isSome) (c :: redactCPFGo fuel t)) = false := by
        show (matchCPFAt (c :: redactCPFGo fuel t)).isSome = false
        rw [matchCPFAt_redact_none fuel c t hm]
        rfl
      rw [firstHit_cons_neg hf, cpfSearch_redactGo fuel t ht]
      rfl

theorem cpfSearch_redactCPF (t : List Char) :
    cpfSearch (redactCPF t) = none :=
  cpfSearch_redactGo t.length t (Nat.le_refl _)
/-!
## Redaction at the record level
-/

/-- The effect of the redaction loop on the looked-up value of a designated
field. -/
def redactVal : Option Val → Option Val
  | some (.s v) => some (.s (if v.isEmpty then v else redactCPF v))
  | o => o

theorem dlookup_redactStep_ne (k fld : List Char) (hk : fld ≠ k) (d : Dict) :
    dlookup k (redactStep d fld) = dlookup k d := by
  cases h : dlookup fld d with
  | none => simp [redactStep, h]
  | some v =>
    cases v with
    | s w =>
      by_cases hw : w.isEmpty
      · simp [redactStep, h, hw]
      · simp [redactStep, h, hw, dlookup_dupdate_ne k fld _ hk d]
    | d e => simp [redactStep, h]

theorem dlookup_redactStep_self (fld : List Char) (d : Dict) :
    dlookup fld (redactStep d fld) = redactVal (dlookup fld d) := by
  cases h : dlookup fld d with
  | none => simp [redactStep, redactVal, h]
  | some v =>
    cases v with
    | s w =>
      by_cases hw : w.isEmpty
      · simp [redactStep, redactVal, h, hw]
      · simp [redactStep, redactVal, h, hw,
          dlookup_dupdate_self fld _ d (by rw [h]; rfl)]
    | d e => simp [redactStep, redactVal, h]

theorem dlookup_foldl_redactStep_not_mem (k : List Char) :
    ∀ (L : List (List Char)), (∀ fld ∈ L, fld ≠ k) → ∀ d : Dict,
      dlookup k (L.foldl redactStep d) = dlookup k d
  | [], _, d => rfl
  | g :: L, h, d => by
    rw [List.foldl_cons,
      dlookup_foldl_redactStep_not_mem k L (fun f hf => h f (by simp [hf]))
        (redactStep d g),
      dlookup_redactStep_ne k g (h g (by simp)) d]

theorem dlookup_foldl_redactStep_mem (k : List Char) :
    ∀ (L : List (List Char)), L.Nodup → k ∈ L → ∀ d : Dict,
      dlookup k (L.foldl redactStep d) = redactVal (dlookup k d)
  | [], _, hk, _ => by simp at hk
  | g :: L, hnd, hk, d => by
    rw [List.foldl_cons]
    by_cases hgk : g = k
    · subst hgk
      have hnotin : ∀ fld ∈ L, fld ≠ g := by
        intro f hf hfg
        subst hfg
        exact (List.nodup_cons.mp hnd).1 hf
      rw [dlookup_foldl_redactStep_not_mem g L hnotin (redactStep d g),
        dlookup_redactStep_self g d]
    · have hkL : k ∈ L := by
        cases List.mem_cons.mp hk with
        | inl h => exact absurd h.symm hgk
        | inr h => exact h
      rw [dlookup_foldl_redactStep_mem k L (List.nodup_cons.mp hnd).2 hkL
          (redactStep d g),
        dlookup_redactStep_ne k g hgk d]

theorem dlookup_redactPass_designated (fld : List Char)
    (hf : fld ∈ designatedFields) (d : Dict) :
    dlookup fld (redactPass d) = redactVal (dlookup fld d) :=
  dlookup_foldl_redactStep_mem fld designatedFields (by decide) hf d

/-- Every successful record is the five metadata inserts applied to the
redaction pass of some intermediate dictionary. -/
theorem buildRecord_shape (categoria : List Char) (meta : Meta)
    (secao : List Char) (r : Dict)
    (hr : buildRecord categoria meta secao = some r) :
    ∃ D : Dict,
      r = dinsert (sChars "local")
        (.d [(sChars "caminho", meta.local_path), (sChars "pdf", meta.pdf_file)])
        (dinsert (sChars "ioepa") (.s meta.internet_path)
          (dinsert (sChars "numero_diario") (.s meta.numero_diario)
            (dinsert (sChars "publicacao") (.s meta.publicacao)
              (dinsert (sChars "sample_texto")
                (.s (secao.take 100 ++ sChars "..."))
                (redactPass D))))) := by
  unfold buildRecord at hr
  cases hnum : numeroSearch secao with
  | none => rw [hnum] at hr; exact absurd hr (by simp)
  | some num =>
    rw [hnum] at hr
    exact ⟨_, (Option.some.inj hr).symm⟩

/-- C8: in the structured output every designated personal-identifier field
(`ordenador`, `responsavel`, `representante_legal`, `interessado`,
`recorrente`) has every CPF-shaped substring replaced — after the
redaction pass no position of such a value matches the CPF pattern — while
the preserved `sample_texto` span alongside the record is the unredacted
first 100 characters of the section plus `"..."`.  (Only the designated
fields are redacted; see the counterexample for other fields.) -/
theorem buildRecord_redacts_designated (categoria : List Char) (meta : Meta)
    (secao : List Char) (r : Dict)
    (hr : buildRecord categoria meta secao = some r) :
    (∀ fld ∈ designatedFields, ∀ v,
        dlookup fld r = some (.s v) → cpfSearch v = none) ∧
    dlookup (sChars "sample_texto") r
      = some (.s (secao.take 100 ++ sChars "...")) := by
  obtain ⟨D, hshape⟩ := buildRecord_shape categoria meta secao r hr
  constructor
  · intro fld hfd v hv
    have hne : sChars "local" ≠ fld ∧ sChars "ioepa" ≠ fld ∧
        sChars "numero_diario" ≠ fld ∧ sChars "publicacao" ≠ fld ∧
        sChars "sample_texto" ≠ fld := by
      have hfd2 := hfd
      simp only [designatedFields, List.mem_cons, List.not_mem_nil,
        or_false] at hfd2
      rcases hfd2 with rfl | rfl | rfl | rfl | rfl <;>
        exact ⟨by decide, by decide, by decide, by decide, by decide⟩
    rw [hshape, dlookup_dinsert_ne fld (sChars "local") _ hne.1 _,
      dlookup_dinsert_ne fld (sChars "ioepa") _ hne.2.1 _,
      dlookup_dinsert_ne fld (sChars "numero_diario") _ hne.2.2.1 _,
      dlookup_dinsert_ne fld (sChars "publicacao") _ hne.2.2.2.1 _,
      dlookup_dinsert_ne fld (sChars "sample_texto") _ hne.2.2.2.2 _,
      dlookup_redactPass_designated fld hfd D] at hv
    cases hD : dlookup fld D with
    | none =>
      rw [hD] at hv
      exact absurd hv (by simp [redactVal])
    | some w =>
      cases w with
      | s u =>
        rw [hD] at hv
        simp only [redactVal] at hv
        injection hv with h1
        injection h1 with h2
        cases u with
        | nil =>
          simp only [List.isEmpty_nil, if_true] at h2
          subst h2
          rfl
        | cons a as =>
          rw [if_neg (by simp)] at h2
          subst h2
          exact cpfSearch_redactCPF _
      | d e =>
        rw [hD] at hv
        exact absurd hv (by simp [redactVal])
  · rw [hshape,
      dlookup_dinsert_ne (sChars "sample_texto") (sChars "local") _ (by decide) _,
      dlookup_dinsert_ne (sChars "sample_texto") (sChars "ioepa") _ (by decide) _,
      dlookup_dinsert_ne (sChars "sample_texto") (sChars "numero_diario") _
        (by decide) _,
      dlookup_dinsert_ne (sChars "sample_texto") (sChars "publicacao") _
        (by decide) _,
      dlookup_dinsert_self (sChars "sample_texto") _ _]

def meta8 : Meta :=
  ⟨sChars "04/03/2025", sChars "2.345", sChars "https://example.org/d2.pdf",
   sChars "/data/d2.pdf", sChars "d2.pdf"⟩

def sampleC8 : List Char :=
  sChars "ACÓRDÃO Nº 11.111 Assunto: texto 123.456.789-10 fim Ordenador: Fulano 111.222.333-44"

def record8 : Dict := (buildRecord (sChars "acordao") meta8 sampleC8).getD []

theorem buildRecord_redacts_designated_witness :
    buildRecord (sChars "acordao") meta8 sampleC8 = some record8 ∧
    sChars "ordenador" ∈ designatedFields ∧
    dlookup (sChars "ordenador") record8
      = some (.s (sChars "Fulano [REDIGIDO]")) ∧
    cpfSearch (sChars "Fulano [REDIGIDO]") = none :=
  ⟨by decide, by decide, by decide,
    (buildRecord_redacts_designated (sChars "acordao") meta8 sampleC8 record8
      (by decide)).1 (sChars "ordenador") (by decide)
      (sChars "Fulano [REDIGIDO]") (by decide)⟩

/-- C8 (counterexample): redaction is applied only to the five designated
fields, not to every field value: on a sample whose `assunto` value
contains a CPF-shaped substring, the structured output keeps that value
unredacted (`clean_text` only redacts when a literal `CPF:` marker with a
mandatory dash is present, which it is not here). -/
theorem assunto_not_redacted :
    ((buildRecord (sChars "acordao") meta8 sampleC8).map
        (fun r => dlookup (sChars "assunto") r))
      = some (some (.s (sChars "texto 123.456.789-10 fim"))) ∧
    (cpfSearch (sChars "texto 123.456.789-10 fim")).isSome = true :=
  ⟨by decide, by decide⟩
/-!
## `Acordao.get_sections` (src/documents/acordao.py, lines 139-187)

`re.finditer(r"ACÓRDÃO\s+Nº\s+(\d+\.\d+)", text)` scans position by
position, emitting non-overlapping matches and resuming after each match.
For every match its span starts there; a non-last span ends at the next
match's start, the last at the minimum of `len(text)` and the
`text.find(delimiter, start)` results, then each slice is stripped and
kept when non-empty.
-/

/-- `ACÓRDÃO\s+Nº\s+\d+\.\d+` at one position, returning the match
length. -/
def matchAcordaoLen (u : List Char) : Option Nat :=
  match litM (sChars "ACÓRDÃO") u with
  | none => none
  | some r1 =>
    match plusM isWS r1 with
    | none => none
    | some r2 =>
      match litM (sChars "Nº") r2 with
      | none => none
      | some r3 =>
        match plusM isWS r3 with
        | none => none
        | some r4 =>
          if (r4.takeWhile isDigitC).isEmpty then none
          else
            match litM (sChars ".") (r4.dropWhile isDigitC) with
            | none => none
            | some r6 =>
              if (r6.takeWhile isDigitC).isEmpty then none
              else some (u.length - (r6.dropWhile isDigitC).length)

/-- `re.finditer`: emit `(start, end)` of each match, resume after it. -/
def finditerGo (m : List Char → Option Nat) : Nat → Nat → List Char → List (Nat × Nat)
  | 0, _, _ => []
  | _, _, [] => []
  | fuel + 1, pos, c :: t =>
    match m (c :: t) with
    | some L => (pos, pos + L) :: finditerGo m fuel (pos + L) ((c :: t).drop L)
    | none => finditerGo m fuel (pos + 1) t

def finditer (m : List Char → Option Nat) (s : List Char) : List (Nat × Nat) :=
  finditerGo m s.length 0 s

/-- `text.find(pat, start)`: index of the first occurrence of `pat` at or
after `start`, if any. -/
def findFrom (pat text : List Char) (start : Nat) : Option Nat :=
  (firstHit (fun u => pat.isPrefixOf u) (text.drop start)).map (· + start)

def sectionDelimiters : List (List Char) :=
  [sChars "DO GABINETE DA PRESIDÊNCIA", sChars "PAUTA DE JULGAMENTO",
   sChars "DO GABINETE DE CONSELHEIRO",
   sChars "CONTROLADORIAS DE CONTROLE EXTERNO",
   sChars "SERVIÇOS AUXILIARES", sChars "Download Anexo"]

/-- One step of the last-section end computation: replace the current end
when the delimiter occurs earlier. -/
def lastEndStep (text : List Char) (start e : Nat) (d : List Char) : Nat :=
  match findFrom d text start with
  | some p => if p < e then p else e
  | none => e

/-- End of the last section: `len(text)` lowered to the earliest delimiter
occurrence at or after `start`. -/
def lastEnd (text : List Char) (start : Nat) : Nat :=
  sectionDelimiters.foldl (lastEndStep text start) text.length

/-- The `(start_pos, end_pos)` spans of the enumeration loop. -/
def spansOf (text : List Char) : List (Nat × Nat) → List (Nat × Nat)
  | [] => []
  | [(s, _)] => [(s, lastEnd text s)]
  | (s, _) :: (s2, e2) :: rest => (s, s2) :: spansOf text ((s2, e2) :: rest)

/-- `Acordao.get_sections`: slice each span, strip it, keep it when
non-empty. -/
def get_sections (text : List Char) : List (List Char) :=
  ((spansOf text (finditer matchAcordaoLen text)).map
      (fun se => pstrip ((text.drop se.1).take (se.2 - se.1)))).filter
    (fun x => !x.isEmpty)
theorem litM_some {pat s r : List Char} (h : litM pat s = some r) :
    pat.length ≤ s.length ∧ r = s.drop pat.length := by
  unfold litM at h
  split at h
  · rename_i hp
    exact ⟨(List.isPrefixOf_iff_prefix.mp hp).length_le, (Option.some.inj h).symm⟩
  · exact absurd h (by simp)

theorem plusM_some {p : Char → Bool} {s r : List Char} (h : plusM p s = some r) :
    r = s.dropWhile p := by
  unfold plusM at h
  split at h
  · exact absurd h (by simp)
  · exact (Option.some.inj h).symm

theorem matchAcordaoLen_bounds {u : List Char} {L : Nat}
    (h : matchAcordaoLen u = some L) : 1 ≤ L ∧ L ≤ u.length := by
  unfold matchAcordaoLen at h
  split at h
  · exact absurd h (by simp)
  · rename_i r1 h1
    split at h
    · exact absurd h (by simp)
    · rename_i r2 h2
      split at h
      · exact absurd h (by simp)
      · rename_i r3 h3
        split at h
        · exact absurd h (by simp)
        · rename_i r4 h4
          split at h
          · exact absurd h (by simp)
          · split at h
            · exact absurd h (by simp)
            · rename_i r6 h5
              split at h
              · exact absurd h (by simp)
              · have hL := (Option.some.inj h).symm
                obtain ⟨hu7, hr1⟩ := litM_some h1
                have hlen1 : r1.length = u.length - 7 := by
                  rw [hr1, List.length_drop]; rfl
                have hlen2 : r2.length ≤ r1.length := by
                  rw [plusM_some h2]; exact length_dropWhile_le _ _
                obtain ⟨_, hr3⟩ := litM_some h3
                have hlen3 : r3.length ≤ r2.length := by
                  rw [hr3, List.length_drop]; omega
                have hlen4 : r4.length ≤ r3.length := by
                  rw [plusM_some h4]; exact length_dropWhile_le _ _
                obtain ⟨_, hr6⟩ := litM_some h5
                have hlen5 : r6.length ≤ r4.length := by
                  rw [hr6, List.length_drop]
                  have := length_dropWhile_le isDigitC r4
                  omega
                have hlen6 : (r6.dropWhile isDigitC).length ≤ r6.length :=
                  length_dropWhile_le _ _
                have hu7' : (7 : Nat) ≤ u.length := by
                  simpa using hu7
                omega

theorem matchAcordaoLen_head {u : List Char} {L : Nat}
    (h : matchAcordaoLen u = some L) : ∃ t, u = 'A' :: t := by
  unfold matchAcordaoLen at h
  split at h
  · exact absurd h (by simp)
  · rename_i r1 h1
    have hp : (sChars "ACÓRDÃO").isPrefixOf u = true := by
      unfold litM at h1
      split at h1
      · assumption
      · exact absurd h1 (by simp)
    obtain ⟨w, hw⟩ := List.isPrefixOf_iff_prefix.mp hp
    exact ⟨sChars "CÓRDÃO" ++ w, by rw [← hw]; rfl⟩

theorem finditerGo_sound (m : List Char → Option Nat)
    (hm : ∀ u L, m u = some L → 1 ≤ L ∧ L ≤ u.length) :
    ∀ (fuel pos : Nat) (s : List Char),
      List.Chain' (fun p q : Nat × Nat => p.2 ≤ q.1) (finditerGo m fuel pos s) ∧
      ∀ ab ∈ finditerGo m fuel pos s,
        pos ≤ ab.1 ∧ ab.1 < ab.2 ∧ ab.2 ≤ pos + s.length ∧
          m (s.drop (ab.1 - pos)) = some (ab.2 - ab.1)
  | 0, pos, s => by simp [finditerGo]
  | fuel + 1, pos, [] => by simp [finditerGo]
  | fuel + 1, pos, c :: t => by
    cases hm0 : m (c :: t) with
    | some L =>
      have hfe : finditerGo m (fuel + 1) pos (c :: t)
          = (pos, pos + L) :: finditerGo m fuel (pos + L) ((c :: t).drop L) := by
        simp [finditerGo, hm0]
      obtain ⟨hL1, hL2⟩ := hm _ _ hm0
      obtain ⟨ihc, ihe⟩ := finditerGo_sound m hm fuel (pos + L) ((c :: t).drop L)
      have hlen : ((c :: t).drop L).length = (c :: t).length - L :=
        List.length_drop _ _
      rw [hfe]
      constructor
      · rw [List.chain'_cons']
        refine ⟨?_, ihc⟩
        intro q hq
        have hmem : q ∈ finditerGo m fuel (pos + L) ((c :: t).drop L) :=
          List.mem_of_mem_head? hq
        exact (ihe q hmem).1
      · intro ab hab
        rcases List.mem_cons.mp hab with rfl | hab2
        · refine ⟨Nat.le_refl _, by omega, by simp [List.length_cons] at hL2 ⊢; omega, ?_⟩
          rw [Nat.sub_self, List.drop_zero, Nat.add_sub_cancel_left]
          exact hm0
        · obtain ⟨h1, h2, h3, h4⟩ := ihe ab hab2
          refine ⟨by omega, h2, ?_, ?_⟩
          · rw [hlen] at h3
            simp [List.length_cons] at h3 hL2 ⊢
            omega
          · rw [← h4]
            congr 1
            rw [List.drop_drop]
            congr 1
            omega
    | none =>
      have hfe : finditerGo m (fuel + 1) pos (c :: t)
          = finditerGo m fuel (pos + 1) t := by
        simp [finditerGo, hm0]
      obtain ⟨ihc, ihe⟩ := finditerGo_sound m hm fuel (pos + 1) t
      rw [hfe]
      refine ⟨ihc, ?_⟩
      intro ab hab
      obtain ⟨h1, h2, h3, h4⟩ := ihe ab hab
      refine ⟨by omega, h2, by simp [List.length_cons]; omega, ?_⟩
      rw [← h4]
      congr 1
      have hix : ab.1 - pos = (ab.1 - (pos + 1)) + 1 := by omega
      rw [hix, List.drop_succ_cons]
theorem findFrom_ge {pat text : List Char} {start p : Nat}
    (h : findFrom pat text start = some p) : start ≤ p := by
  unfold findFrom at h
  cases hq : firstHit (fun u => pat.isPrefixOf u) (text.drop start) with
  | none => rw [hq] at h; exact absurd h (by simp)
  | some q => rw [hq] at h; simp at h; omega

theorem firstHit_zero {f : List Char → Bool} {s : List Char}
    (h : firstHit f s = some 0) : f s = true := by
  cases s with
  | nil =>
    by_cases hf : f [] = true
    · exact hf
    · have hf2 : f ([] : List Char) = false := by
        revert hf; cases f [] <;> simp
      rw [show firstHit f ([] : List Char) = if f [] = true then some 0 else none
        from rfl, hf2] at h
      exact absurd h (by simp)
  | cons c t =>
    by_cases hf : f (c :: t) = true
    · exact hf
    · have hf2 : f (c :: t) = false := by
        revert hf; cases f (c :: t) <;> simp
      rw [firstHit_cons_neg hf2] at h
      cases hq : firstHit f t with
      | none => rw [hq] at h; exact absurd h (by simp)
      | some q => rw [hq] at h; simp at h

theorem findFrom_eq_start {pat text : List Char} {start : Nat}
    (h : findFrom pat text start = some start) :
    pat.isPrefixOf (text.drop start) = true := by
  unfold findFrom at h
  cases hq : firstHit (fun u => pat.isPrefixOf u) (text.drop start) with
  | none => rw [hq] at h; exact absurd h (by simp)
  | some q =>
    rw [hq] at h
    simp at h
    have hq0 : q = 0 := by omega
    subst hq0
    exact firstHit_zero hq

theorem lastEndStep_le (text : List Char) (start e : Nat) (d : List Char) :
    lastEndStep text start e d ≤ e := by
  cases h : findFrom d text start with
  | none => simp [lastEndStep, h]
  | some p =>
    simp only [lastEndStep, h]
    split <;> omega

theorem foldl_lastEndStep_le (text : List Char) (start : Nat) :
    ∀ (L : List (List Char)) (e : Nat),
      L.foldl (lastEndStep text start) e ≤ e
  | [], _ => Nat.le_refl _
  | d :: L, e =>
    le_trans (foldl_lastEndStep_le text start L (lastEndStep text start e d))
      (lastEndStep_le text start e d)

theorem foldl_lastEndStep_spec (text : List Char) (start : Nat) :
    ∀ (L : List (List Char)) (e : Nat),
      (∀ d ∈ L, ∀ p, findFrom d text start = some p →
          L.foldl (lastEndStep text start) e ≤ p) ∧
      (L.foldl (lastEndStep text start) e = e ∨
        ∃ d ∈ L, findFrom d text start = some (L.foldl (lastEndStep text start) e))
  | [], e => ⟨by simp, Or.inl rfl⟩
  | d :: L, e => by
    rw [List.foldl_cons]
    obtain ⟨ih1, ih2⟩ := foldl_lastEndStep_spec text start L (lastEndStep text start e d)
    have hle := foldl_lastEndStep_le text start L (lastEndStep text start e d)
    constructor
    · intro d2 hd2 p hp
      rcases List.mem_cons.mp hd2 with rfl | hd3
      · have hstep : lastEndStep text start e d2 ≤ p := by
          simp only [lastEndStep, hp]
          split <;> omega
        exact le_trans hle hstep
      · exact ih1 d2 hd3 p hp
    · rcases ih2 with heq | ⟨d2, hd2, hfd⟩
      · rw [heq]
        cases hfd : findFrom d text start with
        | none => left; simp [lastEndStep, hfd]
        | some p =>
          by_cases hpe : p < e
          · right
            refine ⟨d, by simp, ?_⟩
            rw [show lastEndStep text start e d = p from by
              simp [lastEndStep, hfd, hpe]]
            exact hfd
          · left
            simp [lastEndStep, hfd, hpe]
      · right
        exact ⟨d2, by simp [hd2], hfd⟩

theorem lastEnd_spec (text : List Char) (start : Nat) :
    lastEnd text start ≤ text.length ∧
    (∀ d ∈ sectionDelimiters, ∀ p, findFrom d text start = some p →
        lastEnd text start ≤ p) ∧
    (lastEnd text start = text.length ∨
      ∃ d ∈ sectionDelimiters, findFrom d text start = some (lastEnd text start)) :=
  ⟨foldl_lastEndStep_le text start _ _,
   (foldl_lastEndStep_spec text start _ _).1,
   (foldl_lastEndStep_spec text start _ _).2⟩

theorem lastEnd_gt (text : List Char) (start : Nat)
    (hstart : start < text.length)
    (hne : ∀ d ∈ sectionDelimiters, findFrom d text start ≠ some start) :
    start < lastEnd text start := by
  rcases (lastEnd_spec text start).2.2 with heq | ⟨d, hd, hfd⟩
  · rw [heq]; exact hstart
  · have h1 := findFrom_ge hfd
    have h2 : lastEnd text start ≠ start := by
      intro hc
      have hx := hfd
      rw [hc] at hx
      exact hne d hd hx
    omega

theorem spansOf_length (text : List Char) :
    ∀ M : List (Nat × Nat), (spansOf text M).length = M.length
  | [] => rfl
  | [(_, _)] => rfl
  | (s, e) :: (s2, e2) :: rest => by
    simp [spansOf, spansOf_length text ((s2, e2) :: rest)]

theorem spansOf_map_fst (text : List Char) :
    ∀ M : List (Nat × Nat), (spansOf text M).map Prod.fst = M.map Prod.fst
  | [] => rfl
  | [(_, _)] => rfl
  | (s, e) :: (s2, e2) :: rest => by
    simp [spansOf, spansOf_map_fst text ((s2, e2) :: rest)]

theorem spansOf_head_fst (text : List Char) (s2 e2 : Nat)
    (rest : List (Nat × Nat)) :
    ∃ q, (spansOf text ((s2, e2) :: rest)).head? = some (s2, q) := by
  cases rest with
  | nil => exact ⟨lastEnd text s2, rfl⟩
  | cons y ys =>
    obtain ⟨y1, y2⟩ := y
    exact ⟨y1, rfl⟩

theorem spansOf_chain_eq (text : List Char) :
    ∀ M : List (Nat × Nat),
      List.Chain' (fun p q : Nat × Nat => p.2 = q.1) (spansOf text M)
  | [] => List.chain'_nil
  | [(_, _)] => by simp [spansOf]
  | (s, e) :: (s2, e2) :: rest => by
    rw [show spansOf text ((s, e) :: (s2, e2) :: rest)
        = (s, s2) :: spansOf text ((s2, e2) :: rest) from rfl]
    rw [List.chain'_cons']
    refine ⟨?_, spansOf_chain_eq text ((s2, e2) :: rest)⟩
    intro q hq
    obtain ⟨q2, hq2⟩ := spansOf_head_fst text s2 e2 rest
    rw [hq2, Option.mem_some_iff] at hq
    rw [← hq]

theorem spansOf_bounds (text : List Char) :
    ∀ M : List (Nat × Nat),
      List.Chain' (fun p q : Nat × Nat => p.2 ≤ q.1) M →
      (∀ ab ∈ M, ab.1 < ab.2 ∧ ab.2 ≤ text.length) →
      (∀ ab ∈ M, ab.1 < lastEnd text ab.1) →
      ∀ p ∈ spansOf text M, p.1 < p.2 ∧ p.2 ≤ text.length
  | [], _, _, _ => by simp [spansOf]
  | [(s, e)], _, _, hl => by
    intro p hp
    rw [show spansOf text [(s, e)] = [(s, lastEnd text s)] from rfl] at hp
    rw [List.mem_singleton] at hp
    subst hp
    exact ⟨hl (s, e) (by simp), (lastEnd_spec text s).1⟩
  | (s, e) :: (s2, e2) :: rest, hch, hel, hl => by
    intro p hp
    rw [show spansOf text ((s, e) :: (s2, e2) :: rest)
        = (s, s2) :: spansOf text ((s2, e2) :: rest) from rfl] at hp
    rcases List.mem_cons.mp hp with rfl | hp2
    · have h1 := (hel (s, e) (by simp)).1
      have h2 : e ≤ s2 := (List.chain'_cons.mp hch).1
      have h3 := hel (s2, e2) (by simp)
      exact ⟨by omega, by omega⟩
    · exact spansOf_bounds text ((s2, e2) :: rest) (List.chain'_cons.mp hch).2
        (fun ab hab => hel ab (by simp [hab]))
        (fun ab hab => hl ab (by simp [hab])) p hp2

theorem spansOf_getLast (text : List Char) :
    ∀ (M : List (Nat × Nat)) (s e : Nat), M.getLast? = some (s, e) →
      (spansOf text M).getLast? = some (s, lastEnd text s)
  | [], s, e, h => by simp at h
  | [(s0, e0)], s, e, h => by
    simp only [List.getLast?_singleton, Option.some.injEq, Prod.mk.injEq] at h
    rw [show spansOf text [(s0, e0)] = [(s0, lastEnd text s0)] from rfl]
    rw [h.1]
    rfl
  | (s0, e0) :: (s1, e1) :: rest, s, e, h => by
    rw [List.getLast?_cons_cons] at h
    have hrec := spansOf_getLast text ((s1, e1) :: rest) s e h
    rw [show spansOf text ((s0, e0) :: (s1, e1) :: rest)
        = (s0, s1) :: spansOf text ((s1, e1) :: rest) from rfl]
    cases rest with
    | nil =>
      rw [show spansOf text [(s1, e1)] = [(s1, lastEnd text s1)] from rfl] at hrec ⊢
      rw [List.getLast?_cons_cons]
      exact hrec
    | cons y ys =>
      obtain ⟨y1, y2⟩ := y
      rw [show spansOf text ((s1, e1) :: (y1, y2) :: ys)
          = (s1, y1) :: spansOf text ((y1, y2) :: ys) from rfl] at hrec ⊢
      rw [List.getLast?_cons_cons]
      exact hrec

theorem pstrip_isEmpty_false {x : List Char} {c : Char} (hh : x.head? = some c)
    (hc : isWS c = false) : (pstrip x).isEmpty = false := by
  cases x with
  | nil => simp at hh
  | cons a t =>
    have ha : a = c := by simpa using hh
    subst ha
    unfold pstrip lstrip rstrip
    rw [List.dropWhile_cons_of_neg (by simp [hc])]
    cases hrev : (a :: t).reverse.dropWhile isWS with
    | nil =>
      have := List.dropWhile_eq_nil_iff.mp hrev a (by simp)
      rw [hc] at this
      exact absurd this (by simp)
    | cons b u => simp
/-- C2: for a text on which the opening marker `ACÓRDÃO\s+Nº\s+\d+\.\d+`
has exactly the matches found by `re.finditer` (N of them), `get_sections`
returns exactly N sections: its results are the stripped slices of N spans
whose starts are exactly the match starts, in increasing order and
non-overlapping (each span's end is the next span's start, and every span
is non-degenerate inside the text); each non-last span ends at the next
match's start, the last span ends at `lastEnd`, which is the earliest
delimiter occurrence at or after the last start, or end-of-text when no
delimiter occurs there. -/
theorem get_sections_segmentation (text : List Char) :
    (get_sections text).length = (finditer matchAcordaoLen text).length ∧
    get_sections text
      = (spansOf text (finditer matchAcordaoLen text)).map
          (fun se => pstrip ((text.drop se.1).take (se.2 - se.1))) ∧
    (spansOf text (finditer matchAcordaoLen text)).map Prod.fst
      = (finditer matchAcordaoLen text).map Prod.fst ∧
    List.Chain' (fun p q : Nat × Nat => p.2 = q.1)
      (spansOf text (finditer matchAcordaoLen text)) ∧
    (∀ p ∈ spansOf text (finditer matchAcordaoLen text),
        p.1 < p.2 ∧ p.2 ≤ text.length) ∧
    (∀ s e, (finditer matchAcordaoLen text).getLast? = some (s, e) →
        (spansOf text (finditer matchAcordaoLen text)).getLast?
          = some (s, lastEnd text s)) ∧
    (∀ s, lastEnd text s ≤ text.length ∧
        (∀ d ∈ sectionDelimiters, ∀ p, findFrom d text s = some p →
            lastEnd text s ≤ p) ∧
        (lastEnd text s = text.length ∨
          ∃ d ∈ sectionDelimiters, findFrom d text s = some (lastEnd text s))) := by
  obtain ⟨hch, hel⟩ := finditerGo_sound matchAcordaoLen
    (fun u L h => matchAcordaoLen_bounds h) text.length 0 text
  have helem : ∀ ab ∈ finditer matchAcordaoLen text,
      ab.1 < ab.2 ∧ ab.2 ≤ text.length := by
    intro ab hab
    obtain ⟨_, h2, h3, _⟩ := hel ab hab
    exact ⟨h2, by omega⟩
  have hmatch : ∀ ab ∈ finditer matchAcordaoLen text,
      matchAcordaoLen (text.drop ab.1) = some (ab.2 - ab.1) := by
    intro ab hab
    have h4 := (hel ab hab).2.2.2
    rwa [Nat.sub_zero] at h4
  have hheadA : ∀ ab ∈ finditer matchAcordaoLen text,
      ∃ t2, text.drop ab.1 = 'A' :: t2 :=
    fun ab hab => matchAcordaoLen_head (hmatch ab hab)
  have hlastgt : ∀ ab ∈ finditer matchAcordaoLen text,
      ab.1 < lastEnd text ab.1 := by
    intro ab hab
    obtain ⟨t2, ht2⟩ := hheadA ab hab
    have hstart : ab.1 < text.length := by
      have hlg := congrArg List.length ht2
      rw [List.length_drop] at hlg
      simp only [List.length_cons] at hlg
      omega
    refine lastEnd_gt text ab.1 hstart ?_
    intro d hd hc
    have hpre := findFrom_eq_start hc
    rw [ht2] at hpre
    have hall : sectionDelimiters.all
        (fun d => !d.isEmpty && !((sChars "A").isPrefixOf d)) = true := by decide
    have hd2 := List.all_eq_true.mp hall d hd
    simp only [Bool.and_eq_true, Bool.not_eq_true'] at hd2
    cases d with
    | nil => simp at hd2
    | cons b bs =>
      rw [isPrefixOf_cons_iff] at hpre
      obtain ⟨hb, _⟩ := hpre
      rw [← hb] at hd2
      simp [List.isPrefixOf] at hd2
  have hmap : get_sections text
      = (spansOf text (finditer matchAcordaoLen text)).map
          (fun se => pstrip ((text.drop se.1).take (se.2 - se.1))) := by
    unfold get_sections
    rw [List.filter_eq_self.mpr]
    intro x hx
    rw [List.mem_map] at hx
    obtain ⟨p, hp, rfl⟩ := hx
    have hp1 : p.1 ∈ (finditer matchAcordaoLen text).map Prod.fst := by
      rw [← spansOf_map_fst text]
      exact List.mem_map_of_mem Prod.fst hp
    rw [List.mem_map] at hp1
    obtain ⟨ab, hab, habeq⟩ := hp1
    obtain ⟨t2, ht2⟩ := hheadA ab hab
    have hlt := (spansOf_bounds text _ hch helem hlastgt p hp).1
    obtain ⟨k, hk⟩ : ∃ k, p.2 - p.1 = k + 1 := ⟨p.2 - p.1 - 1, by omega⟩
    have hhead : ((text.drop p.1).take (p.2 - p.1)).head? = some 'A' := by
      rw [hk, ← habeq, ht2]
      rfl
    rw [Bool.not_eq_true']
    exact pstrip_isEmpty_false hhead (by decide)
  refine ⟨?_, hmap, spansOf_map_fst text _, spansOf_chain_eq text _,
    spansOf_bounds text _ hch helem hlastgt,
    fun s e h => spansOf_getLast text _ s e h,
    fun s => lastEnd_spec text s⟩
  rw [hmap, List.length_map, spansOf_length]

def sampleC2 : List Char :=
  sChars "prefixo ACÓRDÃO  Nº 12.34 corpo um\n ACÓRDÃO\nNº 5.6 corpo dois   SERVIÇOS AUXILIARES resto"

theorem get_sections_segmentation_witness :
    (finditer matchAcordaoLen sampleC2).length = 2 ∧
    (get_sections sampleC2).length = 2 ∧
    (finditer matchAcordaoLen sampleC2).getLast? = some (36, 50) ∧
    (spansOf sampleC2 (finditer matchAcordaoLen sampleC2)).getLast?
      = some (36, lastEnd sampleC2 36) :=
  ⟨by decide,
   by rw [(get_sections_segmentation sampleC2).1]; decide,
   by decide,
   (get_sections_segmentation sampleC2).2.2.2.2.2.1 36 50 (by decide)⟩

end TCMPA
